import Mathlib

/-!
# Driver.cpp : linear transformation of a raster image

A shallow embedding of `createOutputImage`, `linearTransformation` and
`bilinearInterpolation` from `Driver.cpp`.

Modelling choices.

* `double` is an ordered field `α` with a floor function.  The theorems that need
  facts about the cosine and the sine are stated over `ℝ`; every definition is
  also executable over `ℚ`.  Rounding of floating-point arithmetic, infinities and
  NaN are outside the model.
* `int` is `Int`; the conversions `static_cast<int>` of a `double` are exact
  (the value is assumed to fit the machine word).  `x_max / 2` is the truncating
  division `Int.tdiv`.
* `byte` is `Fin 256`; `static_cast<byte>` truncates toward zero and keeps the low
  eight bits.
* The `<cmath>` routines `cos`, `sin` and the constant `M_PI` are a parameter
  (`CMath`); `floor` and `ceil` are the floor and the ceiling of `α`.
* A division by zero is not an error of `α`; `linearTransformationChecked` repeats
  `linearTransformation` with the two divisions made fallible, so that "a division by
  zero is executed" is the result `none`.
* `Image.h` is not part of the sources: `pixel` and `Image` follow the description
  of the collaborator in the specification.  `getPixel` and `setPixel` are total in
  the model, and every call is recorded in an access log, so that "no access
  outside the image" is a statement about the log.
-/

namespace Driver

/-! ## The collaborator `Image.h` -/

/-- Modelled from the spec: the 8-bit unsigned channel type `byte` of `Image.h`. -/
abbrev byte := Fin 256

/-- Modelled from the spec: the `pixel` record of `Image.h`, three 8-bit unsigned
channels red, green and blue. -/
structure pixel where
  red : byte
  green : byte
  blue : byte
deriving DecidableEq, Repr

/-- Modelled from the spec: the `Image` class of `Image.h`, a grid of `rows × cols`
pixels addressed by (row, col).  Only the positions with `0 ≤ row < rows` and
`0 ≤ col < cols` belong to the image. -/
structure Image where
  rows : Nat
  cols : Nat
  pixels : Int → Int → pixel

/-- Modelled from the spec: `Image::getRows`. -/
def Image.getRows (img : Image) : Int := (img.rows : Int)

/-- Modelled from the spec: `Image::getCols`. -/
def Image.getCols (img : Image) : Int := (img.cols : Int)

/-- Modelled from the spec: `Image::getPixel(row, col)`. -/
def Image.getPixel (img : Image) (row col : Int) : pixel := img.pixels row col

/-- Modelled from the spec: `Image::setPixel(row, col, pix)`; it replaces the pixel
at (row, col) and nothing else. -/
def Image.setPixel (img : Image) (row col : Int) (pix : pixel) : Image :=
  { img with pixels := fun r c => if r = row ∧ c = col then pix else img.pixels r c }

/-- Modelled from the spec: the positions that `getPixel` and `setPixel` accept,
`[0, rows) × [0, cols)`. -/
def Image.inBounds (img : Image) (row col : Int) : Prop :=
  0 ≤ row ∧ row < img.getRows ∧ 0 ≤ col ∧ col < img.getCols

instance (img : Image) (row col : Int) : Decidable (img.inBounds row col) := by
  unfold Image.inBounds
  infer_instance

/-- An image of the given size whose pixels all have the same value. -/
def Image.solid (rows cols : Nat) (pix : pixel) : Image :=
  { rows := rows, cols := cols, pixels := fun _ _ => pix }

/-- Modelled from the spec: a blank image, `Image(rows, cols)`, every pixel zeroed
(the default background value). -/
def Image.blank (rows cols : Nat) : Image :=
  Image.solid rows cols ⟨0, 0, 0⟩

/-- One call of the collaborator made by the program: `getPixel` on the input image
or `setPixel` on the output image, with its row and column. -/
inductive Access where
  | read (row col : Int)
  | write (row col : Int)
deriving DecidableEq, Repr

/-- The access is legal: a read lies inside the input image, a write inside the
output image. -/
def Access.legal (input output : Image) : Access → Prop
  | .read row col => input.inBounds row col
  | .write row col => output.inBounds row col

/-! ## `<cmath>` -/

/-- The routines `cos`, `sin` and the constant `M_PI` of `<cmath>`. -/
structure CMath (α : Type) where
  cos : α → α
  sin : α → α
  M_PI : α

/-- The exact `<cmath>` over the real numbers. -/
noncomputable def cmath : CMath ℝ :=
  { cos := Real.cos, sin := Real.sin, M_PI := Real.pi }

/-! ## Conversions -/

section Conversions

variable {α : Type} [LinearOrderedField α] [FloorRing α]

/-- C++ `static_cast<int>(v)` for a `double`: truncation toward zero. -/
def toInt (v : α) : Int :=
  if 0 ≤ v then ⌊v⌋ else ⌈v⌉

/-- C++ `static_cast<byte>(v)` for a `double`: truncation toward zero, then the low
eight bits. -/
def toByte (v : α) : byte :=
  ⟨(toInt v % 256).toNat, by
    have h1 : 0 ≤ toInt v % 256 := Int.emod_nonneg _ (by decide)
    have h2 : toInt v % 256 < 256 := Int.emod_lt_of_pos _ (by decide)
    omega⟩

end Conversions

/-! ## `linearTransformation` (Driver.cpp, lines 147-183) -/

/-- Driver.cpp `linearTransformation`: the reference parameters `x`, `y` are returned
as a pair. -/
def linearTransformation {α : Type} [LinearOrderedField α] (m : CMath α)
    (x y : α) (x_max y_max : Int)
    (x_scale y_scale x_trans y_trans theta k_val : α) : α × α :=
  -- go to center
  let x := x - ((Int.tdiv x_max 2 : Int) : α)
  let y := y - ((Int.tdiv y_max 2 : Int) : α)
  -- inverse translation
  let x := x - x_trans
  let y := y - y_trans
  -- inverse scale
  let p := if x_scale > 0 ∨ y_scale > 0 then (x / x_scale, y / y_scale) else (x, y)
  let x := p.1
  let y := p.2
  -- inverse shear
  let x := x - k_val * y
  -- inverse rotation
  let x_val := x
  let y_val := y
  let x := x_val * m.cos (theta * m.M_PI / 180) + y_val * m.sin (theta * m.M_PI / 180)
  let y := -x_val * m.sin (theta * m.M_PI / 180) + y_val * m.cos (theta * m.M_PI / 180)
  -- return to origin
  (x + ((Int.tdiv x_max 2 : Int) : α), y + ((Int.tdiv y_max 2 : Int) : α))

/-- C++ `a / b` on `double` with the division by zero made observable: `none` when
the divisor is zero. -/
def checkedDiv {α : Type} [LinearOrderedField α] (a b : α) : Option α :=
  if b = 0 then none else some (a / b)

/-- Driver.cpp `linearTransformation` with the two divisions of lines 167-168 made
fallible: the result is `none` when a division by zero is executed. -/
def linearTransformationChecked {α : Type} [LinearOrderedField α] (m : CMath α)
    (x y : α) (x_max y_max : Int)
    (x_scale y_scale x_trans y_trans theta k_val : α) : Option (α × α) := do
  -- go to center
  let x := x - ((Int.tdiv x_max 2 : Int) : α)
  let y := y - ((Int.tdiv y_max 2 : Int) : α)
  -- inverse translation
  let x := x - x_trans
  let y := y - y_trans
  -- inverse scale
  let p ← if x_scale > 0 ∨ y_scale > 0 then
      (checkedDiv x x_scale).bind (fun x1 => (checkedDiv y y_scale).bind (fun y1 => some (x1, y1)))
    else some (x, y)
  let x := p.1
  let y := p.2
  -- inverse shear
  let x := x - k_val * y
  -- inverse rotation
  let x_val := x
  let y_val := y
  let x := x_val * m.cos (theta * m.M_PI / 180) + y_val * m.sin (theta * m.M_PI / 180)
  let y := -x_val * m.sin (theta * m.M_PI / 180) + y_val * m.cos (theta * m.M_PI / 180)
  -- return to origin
  pure (x + ((Int.tdiv x_max 2 : Int) : α), y + ((Int.tdiv y_max 2 : Int) : α))

/-! ## `bilinearInterpolation` (Driver.cpp, lines 193-235) -/

section Resampler

variable {α : Type} [LinearOrderedField α] [FloorRing α]

/-- Driver.cpp lines 214-217 (219-222, 224-227): the weighted sum of one channel
over the four corners, before the conversion to `byte`. -/
def channelSum (x y : α) (x1 x2 y1 y2 : Int) (input : Image) (channel : pixel → byte) : α :=
  (1 - (x - x1)) * (1 - (y - y1)) * ((channel (input.getPixel y1 x1)).val : α) +
  (1 - (x - x1)) * (1 - (y2 - y)) * ((channel (input.getPixel y2 x1)).val : α) +
  (1 - (x2 - x)) * (1 - (y - y1)) * ((channel (input.getPixel y1 x2)).val : α) +
  (1 - (x2 - x)) * (1 - (y2 - y)) * ((channel (input.getPixel y2 x2)).val : α)

/-- The four corner reads made for one channel, in the order they are written in the
source. -/
def cornerReads (x1 x2 y1 y2 : Int) : List Access :=
  [Access.read y1 x1, Access.read y2 x1, Access.read y1 x2, Access.read y2 x2]

/-- Driver.cpp `bilinearInterpolation`.  The result is the output image after the
call together with the calls of `getPixel` and `setPixel` that were made. -/
def bilinearInterpolation (x y : α) (x_outLoc y_outLoc : Int)
    (input_img output_img : Image) : Image × List Access :=
  let x1 : Int := ⌊x⌋
  let x2 : Int := ⌈x⌉
  let y1 : Int := ⌊y⌋
  let y2 : Int := ⌈y⌉
  let x2 : Int := if x ≥ (x2 : α) then ⌈x + 1⌉ else x2
  let y2 : Int := if y ≥ (y2 : α) then ⌈y + 1⌉ else y2
  if x1 ≥ 0 ∧ x1 < input_img.getCols ∧ x2 ≥ 0 ∧ x2 < input_img.getCols ∧
      y1 ≥ 0 ∧ y1 < input_img.getRows ∧ y2 ≥ 0 ∧ y2 < input_img.getRows then
    let red_val : byte := toByte (channelSum x y x1 x2 y1 y2 input_img pixel.red)
    let green_val : byte := toByte (channelSum x y x1 x2 y1 y2 input_img pixel.green)
    let blue_val : byte := toByte (channelSum x y x1 x2 y1 y2 input_img pixel.blue)
    let pix : pixel := input_img.getPixel (toInt y) (toInt x)
    let pix : pixel := { pix with red := red_val }
    let pix : pixel := { pix with green := green_val }
    let pix : pixel := { pix with blue := blue_val }
    (output_img.setPixel y_outLoc x_outLoc pix,
      cornerReads x1 x2 y1 y2 ++ cornerReads x1 x2 y1 y2 ++ cornerReads x1 x2 y1 y2 ++
        [Access.read (toInt y) (toInt x), Access.write y_outLoc x_outLoc])
  else
    (output_img, [])

/-- The bilinear sample of the input image at a real position, in the words of the
specification: the corners are `x1 = floor x`, `x2 = x1 + 1`, `y1 = floor y`,
`y2 = y1 + 1`; each channel is the weighted sum over (y1,x1), (y2,x1), (y1,x2),
(y2,x2) with the weights `(1-(x-x1))(1-(y-y1))`, `(1-(x-x1))(1-(y2-y))`,
`(1-(x2-x))(1-(y-y1))`, `(1-(x2-x))(1-(y2-y))`, truncated to 8 bits. -/
def bilinearSample (input : Image) (x y : α) : pixel :=
  let x1 : Int := ⌊x⌋
  let y1 : Int := ⌊y⌋
  let sample (channel : pixel → byte) : byte :=
    toByte ((1 - (x - x1)) * (1 - (y - y1)) * ((channel (input.getPixel y1 x1)).val : α) +
      (1 - (x - x1)) * (1 - (((y1 + 1 : Int) : α) - y)) *
        ((channel (input.getPixel (y1 + 1) x1)).val : α) +
      (1 - (((x1 + 1 : Int) : α) - x)) * (1 - (y - y1)) *
        ((channel (input.getPixel y1 (x1 + 1))).val : α) +
      (1 - (((x1 + 1 : Int) : α) - x)) * (1 - (((y1 + 1 : Int) : α) - y)) *
        ((channel (input.getPixel (y1 + 1) (x1 + 1))).val : α))
  { red := sample pixel.red, green := sample pixel.green, blue := sample pixel.blue }

/-- The footprint `floor x`, `floor x + 1`, `floor y`, `floor y + 1` lies inside the
input image. -/
def sampleInside (input : Image) (x y : α) : Prop :=
  (0 ≤ ⌊x⌋ ∧ ⌊x⌋ < input.getCols) ∧ (0 ≤ ⌊x⌋ + 1 ∧ ⌊x⌋ + 1 < input.getCols) ∧
  (0 ≤ ⌊y⌋ ∧ ⌊y⌋ < input.getRows) ∧ (0 ≤ ⌊y⌋ + 1 ∧ ⌊y⌋ + 1 < input.getRows)

instance (input : Image) (x y : α) : Decidable (sampleInside input x y) := by
  unfold sampleInside
  infer_instance

/-- Driver.cpp lines 200-209 on one axis: the lower index `floor(v)` and the upper
index `ceil(v)`, replaced by `ceil(v + 1)` when `v >= ceil(v)`. -/
def neighbours (v : α) : Int × Int :=
  let v1 : Int := ⌊v⌋
  let v2 : Int := ⌈v⌉
  let v2 : Int := if v ≥ (v2 : α) then ⌈v + 1⌉ else v2
  (v1, v2)

/-- Driver.cpp line 204 (and 207): the condition of the widening branch, `v >= v2` with
`v2 = ceil(v)`. -/
def widens (v : α) : Prop := v ≥ ((⌈v⌉ : Int) : α)

/-- Driver.cpp lines 211-212: the bounds check on the four sample indices, taken at
the indices of lines 200-209. -/
def boundsCheck (input : Image) (x y : α) : Prop :=
  (neighbours x).1 ≥ 0 ∧ (neighbours x).1 < input.getCols ∧
  (neighbours x).2 ≥ 0 ∧ (neighbours x).2 < input.getCols ∧
  (neighbours y).1 ≥ 0 ∧ (neighbours y).1 < input.getRows ∧
  (neighbours y).2 ≥ 0 ∧ (neighbours y).2 < input.getRows

instance (input : Image) (x y : α) : Decidable (boundsCheck input x y) := by
  unfold boundsCheck
  infer_instance

/-- Driver.cpp lines 214-217: the four weights, in the order of the corners (y1,x1),
(y2,x1), (y1,x2), (y2,x2). -/
def weights (x y : α) (x1 x2 y1 y2 : Int) : α × α × α × α :=
  ((1 - (x - x1)) * (1 - (y - y1)),
   (1 - (x - x1)) * (1 - (y2 - y)),
   (1 - (x2 - x)) * (1 - (y - y1)),
   (1 - (x2 - x)) * (1 - (y2 - y)))

/-- The four weights that `bilinearInterpolation` uses at the source coordinate
`(x, y)`: the weights of lines 214-217 at the indices of lines 200-209. -/
def interpolationWeights (x y : α) : α × α × α × α :=
  weights x y (neighbours x).1 (neighbours x).2 (neighbours y).1 (neighbours y).2

/-- The weighted sum that `bilinearInterpolation` computes for one channel at the source
coordinate `(x, y)`, before the conversion to `byte`. -/
def interpolatedChannel (input : Image) (x y : α) (channel : pixel → byte) : α :=
  channelSum x y (neighbours x).1 (neighbours x).2 (neighbours y).1 (neighbours y).2
    input channel

/-- The four corner values of one channel at the source coordinate `(x, y)`, in the
order (y1,x1), (y2,x1), (y1,x2), (y2,x2). -/
def cornerValues (input : Image) (x y : α) (channel : pixel → byte) : Nat × Nat × Nat × Nat :=
  ((channel (input.getPixel (neighbours y).1 (neighbours x).1)).val,
   (channel (input.getPixel (neighbours y).2 (neighbours x).1)).val,
   (channel (input.getPixel (neighbours y).1 (neighbours x).2)).val,
   (channel (input.getPixel (neighbours y).2 (neighbours x).2)).val)

end Resampler

/-! ## `createOutputImage` (Driver.cpp, lines 118-136) -/

section Orchestration

variable {α : Type} [LinearOrderedField α] [FloorRing α]

/-- Driver.cpp lines 129-133: the body of the inner loop at column `i`, row `j`.  The
state is the output image and the access log so far. -/
def visit (m : CMath α) (input_img : Image)
    (x_scale y_scale x_trans y_trans theta k_val : α)
    (st : Image × List Access) (i j : Nat) : Image × List Access :=
  let x : α := ((i : Int) : α)
  let y : α := ((j : Int) : α)
  let p := linearTransformation m x y st.1.getCols st.1.getRows
    x_scale y_scale x_trans y_trans theta k_val
  let r := bilinearInterpolation p.1 p.2 (i : Int) (j : Int) input_img st.1
  (r.1, st.2 ++ r.2)

/-- Driver.cpp `createOutputImage`: the outer loop runs over the columns `i`, the
inner loop over the rows `j`.  The result is the output image after the call and the
log of all calls of `getPixel` and `setPixel`. -/
def createOutputImage (m : CMath α) (input_img output_img : Image)
    (x_scale y_scale x_trans y_trans theta k_val : α) : Image × List Access :=
  (List.range output_img.cols).foldl
    (fun st i =>
      (List.range st.1.rows).foldl
        (fun st j => visit m input_img x_scale y_scale x_trans y_trans theta k_val st i j)
        st)
    (output_img, [])

/-- The same per-pixel work as `createOutputImage`, with the pixels visited in the
order of an arbitrary list of (column, row) pairs. -/
def createOutputImageIn (m : CMath α) (input_img output_img : Image)
    (x_scale y_scale x_trans y_trans theta k_val : α)
    (order : List (Nat × Nat)) : Image × List Access :=
  order.foldl
    (fun st a => visit m input_img x_scale y_scale x_trans y_trans theta k_val st a.1 a.2)
    (output_img, [])

/-- Driver.cpp lines 129-132: the source coordinate computed for the output pixel in
column `i` and row `j` of an output image with `outCols` columns and `outRows` rows. -/
def sourceOf (m : CMath α) (outCols outRows : Nat)
    (x_scale y_scale x_trans y_trans theta k_val : α) (i j : Nat) : α × α :=
  linearTransformation m ((i : Int) : α) ((j : Int) : α) (outCols : Int) (outRows : Int)
    x_scale y_scale x_trans y_trans theta k_val

/-- The (column, row) pairs of an image with `outCols` columns and `outRows` rows in the
order in which `createOutputImage` visits them. -/
def loopOrder (outCols outRows : Nat) : List (Nat × Nat) :=
  (List.range outCols).flatMap (fun i => (List.range outRows).map (fun j => (i, j)))

end Orchestration

/-! ## The transforms named by the specification -/

section Forward

variable {α : Type} [LinearOrderedField α]

/-- The scaling `S = diag(x_scale, y_scale)`. -/
def scaleStep (x_scale y_scale : α) (p : α × α) : α × α :=
  (x_scale * p.1, y_scale * p.2)

/-- The shear `K = [[1, k_val], [0, 1]]`: `x += k_val * y`. -/
def shearStep (k_val : α) (p : α × α) : α × α :=
  (p.1 + k_val * p.2, p.2)

/-- The rotation `R = [[cos theta, -sin theta], [sin theta, cos theta]]`, `theta` in
degrees. -/
def rotateStep (m : CMath α) (theta : α) (p : α × α) : α × α :=
  (m.cos (theta * m.M_PI / 180) * p.1 - m.sin (theta * m.M_PI / 180) * p.2,
   m.sin (theta * m.M_PI / 180) * p.1 + m.cos (theta * m.M_PI / 180) * p.2)

/-- The center `c = (x_max / 2, y_max / 2)`, integer division. -/
def center (x_max y_max : Int) : α × α :=
  (((Int.tdiv x_max 2 : Int) : α), ((Int.tdiv y_max 2 : Int) : α))

/-- The forward transform `F(p) = S*K*R*(p - c) + c + t` of the file header
(`q = SKRp + t`, about the image center). -/
def forward (m : CMath α) (p : α × α) (x_max y_max : Int)
    (x_scale y_scale x_trans y_trans theta k_val : α) : α × α :=
  scaleStep x_scale y_scale (shearStep k_val (rotateStep m theta (p - center x_max y_max)))
    + center x_max y_max + (x_trans, y_trans)

/-- The chain translate-to-origin, scale, shear, rotate, translate-back:
`G(p) = R(K(S(p - c))) + c`. -/
def chainScaleShearRotate (m : CMath α) (p : α × α) (x_max y_max : Int)
    (x_scale y_scale theta k_val : α) : α × α :=
  rotateStep m theta (shearStep k_val (scaleStep x_scale y_scale (p - center x_max y_max)))
    + center x_max y_max

/-- The chain translate-to-origin, rotate, shear, scale, translate-back:
`p ↦ S(K(R(p - c))) + c`. -/
def chainRotateShearScale (m : CMath α) (p : α × α) (x_max y_max : Int)
    (x_scale y_scale theta k_val : α) : α × α :=
  scaleStep x_scale y_scale (shearStep k_val (rotateStep m theta (p - center x_max y_max)))
    + center x_max y_max

/-- Steps 4 to 6 of the inverse mapper in the words of the specification, from the
point `(u, v)` reached after recentering, translation and scale: `u1 = u - k_val*v`,
then `srcX = u1*cos(theta) + v*sin(theta) + cx`, `srcY = -u1*sin(theta) + v*cos(theta) + cy`
with `theta` converted from degrees to radians. -/
def shearRotateRecenter (m : CMath α) (u v : α) (x_max y_max : Int) (theta k_val : α) : α × α :=
  let cx : α := ((Int.tdiv x_max 2 : Int) : α)
  let cy : α := ((Int.tdiv y_max 2 : Int) : α)
  let rad : α := theta * m.M_PI / 180
  let u1 : α := u - k_val * v
  (u1 * m.cos rad + v * m.sin rad + cx, -u1 * m.sin rad + v * m.cos rad + cy)

end Forward

/-! ## Lemmas on the resampler -/

section ResamplerLemmas

variable {α : Type} [LinearOrderedField α] [FloorRing α]

/-- After the widening step the upper index is always `floor v + 1`. -/
theorem widen_ceil (v : α) :
    (if v ≥ ((⌈v⌉ : Int) : α) then ⌈v + 1⌉ else ⌈v⌉) = ⌊v⌋ + 1 := by
  by_cases h : v ≥ ((⌈v⌉ : Int) : α)
  · have hv : v = ((⌈v⌉ : Int) : α) := le_antisymm (Int.le_ceil v) h
    have hf : ⌊v⌋ = ⌈v⌉ := by
      conv_lhs => rw [hv]
      exact Int.floor_intCast _
    rw [if_pos h, Int.ceil_add_one, hf]
  · have hlt : v < ((⌈v⌉ : Int) : α) := lt_of_not_ge h
    have h1 : ⌊v⌋ < ⌈v⌉ := by
      have : ((⌊v⌋ : Int) : α) < ((⌈v⌉ : Int) : α) := lt_of_le_of_lt (Int.floor_le v) hlt
      exact_mod_cast this
    have h2 := Int.ceil_le_floor_add_one v
    rw [if_neg h]
    omega

theorem toInt_of_nonneg {v : α} (h : 0 ≤ v) : toInt v = ⌊v⌋ := by
  simp [toInt, h]

theorem toByte_natCast (n : Nat) (h : n < 256) : toByte (n : α) = ⟨n, h⟩ := by
  have h0 : (0 : α) ≤ (n : α) := Nat.cast_nonneg n
  apply Fin.ext
  simp only [toByte, toInt_of_nonneg h0, Int.floor_natCast]
  omega

theorem sampleInside_iff (input : Image) (x y : α) :
    sampleInside input x y ↔
      (⌊x⌋ ≥ 0 ∧ ⌊x⌋ < input.getCols ∧ ⌊x⌋ + 1 ≥ 0 ∧ ⌊x⌋ + 1 < input.getCols ∧
        ⌊y⌋ ≥ 0 ∧ ⌊y⌋ < input.getRows ∧ ⌊y⌋ + 1 ≥ 0 ∧ ⌊y⌋ + 1 < input.getRows) := by
  unfold sampleInside
  constructor
  · rintro ⟨⟨a, b⟩, ⟨c, d⟩, ⟨e, f⟩, g, h⟩
    exact ⟨a, b, c, d, e, f, g, h⟩
  · rintro ⟨a, b, c, d, e, f, g, h⟩
    exact ⟨⟨a, b⟩, ⟨c, d⟩, ⟨e, f⟩, g, h⟩

/-- The footprint test at a point with integer coordinates. -/
theorem sampleInside_intCast (input : Image) (a b : Int) :
    sampleInside input ((a : Int) : α) ((b : Int) : α) ↔
      (0 ≤ a ∧ a + 1 < input.getCols) ∧ (0 ≤ b ∧ b + 1 < input.getRows) := by
  unfold sampleInside
  rw [Int.floor_intCast, Int.floor_intCast]
  constructor
  · rintro ⟨⟨h1, _⟩, ⟨_, h4⟩, ⟨h5, _⟩, _, h8⟩
    exact ⟨⟨h1, h4⟩, h5, h8⟩
  · rintro ⟨⟨h1, h2⟩, h3, h4⟩
    refine ⟨⟨h1, ?_⟩, ⟨?_, h2⟩, ⟨h3, ?_⟩, ?_, h4⟩ <;> omega

/-- What one call of `bilinearInterpolation` does, with the indices in closed form. -/
theorem bilinearInterpolation_eq (x y : α) (x_outLoc y_outLoc : Int) (input output : Image) :
    bilinearInterpolation x y x_outLoc y_outLoc input output =
      if sampleInside input x y then
        (output.setPixel y_outLoc x_outLoc (bilinearSample input x y),
          cornerReads ⌊x⌋ (⌊x⌋ + 1) ⌊y⌋ (⌊y⌋ + 1) ++ cornerReads ⌊x⌋ (⌊x⌋ + 1) ⌊y⌋ (⌊y⌋ + 1) ++
            cornerReads ⌊x⌋ (⌊x⌋ + 1) ⌊y⌋ (⌊y⌋ + 1) ++
            [Access.read ⌊y⌋ ⌊x⌋, Access.write y_outLoc x_outLoc])
      else (output, []) := by
  unfold bilinearInterpolation
  simp only [widen_ceil]
  by_cases h : sampleInside input x y
  · rw [if_pos h, if_pos ((sampleInside_iff input x y).1 h)]
    have hx : (0 : α) ≤ x := Int.floor_nonneg.1 h.1.1
    have hy : (0 : α) ≤ y := Int.floor_nonneg.1 h.2.2.1.1
    rw [toInt_of_nonneg hx, toInt_of_nonneg hy]
    rfl
  · rw [if_neg h, if_neg (fun h2 => h ((sampleInside_iff input x y).2 h2))]

/-- Every access logged by one call of `bilinearInterpolation` is a read inside the
input image or the write at the output location. -/
theorem bilinearInterpolation_log (x y : α) (x_outLoc y_outLoc : Int) (input output : Image)
    (a : Access) (ha : a ∈ (bilinearInterpolation x y x_outLoc y_outLoc input output).2) :
    (∃ row col, a = Access.read row col ∧ input.inBounds row col) ∨
      a = Access.write y_outLoc x_outLoc := by
  rw [bilinearInterpolation_eq] at ha
  split at ha
  · rename_i h
    obtain ⟨⟨h1, h2⟩, ⟨h3, h4⟩, ⟨h5, h6⟩, h7, h8⟩ := h
    simp only [cornerReads, List.mem_append, List.mem_cons, List.mem_singleton,
      List.not_mem_nil, or_false] at ha
    rcases ha with ((ha | ha) | ha) | ha
    · rcases ha with ha | ha | ha | ha <;>
        exact Or.inl ⟨_, _, ha, by unfold Image.inBounds; refine ⟨?_, ?_, ?_, ?_⟩ <;> assumption⟩
    · rcases ha with ha | ha | ha | ha <;>
        exact Or.inl ⟨_, _, ha, by unfold Image.inBounds; refine ⟨?_, ?_, ?_, ?_⟩ <;> assumption⟩
    · rcases ha with ha | ha | ha | ha <;>
        exact Or.inl ⟨_, _, ha, by unfold Image.inBounds; refine ⟨?_, ?_, ?_, ?_⟩ <;> assumption⟩
    · rcases ha with ha | ha
      · exact Or.inl ⟨_, _, ha, by unfold Image.inBounds; refine ⟨?_, ?_, ?_, ?_⟩ <;> assumption⟩
      · exact Or.inr ha
  · exact absurd ha (List.not_mem_nil a)

/-- A source coordinate exactly on the last column or on the last row fails the
footprint test. -/
theorem not_sampleInside_of_last (input : Image) (x y : α)
    (h : x = ((input.getCols - 1 : Int) : α) ∨ y = ((input.getRows - 1 : Int) : α)) :
    ¬ sampleInside input x y := by
  rintro ⟨_, ⟨_, h4⟩, _, _, h8⟩
  rcases h with h | h
  · rw [h, Int.floor_intCast] at h4
    omega
  · rw [h, Int.floor_intCast] at h8
    omega

/-- At a point with integer coordinates the bilinear sample is the pixel itself. -/
theorem bilinearSample_intCast (input : Image) (a b : Int) :
    bilinearSample input ((a : Int) : α) ((b : Int) : α) = input.getPixel b a := by
  have key : ∀ channel : pixel → byte,
      toByte ((1 - ((a : α) - (a : α))) * (1 - ((b : α) - (b : α))) *
          ((channel (input.getPixel b a)).val : α) +
        (1 - ((a : α) - (a : α))) * (1 - (((b + 1 : Int) : α) - (b : α))) *
          ((channel (input.getPixel (b + 1) a)).val : α) +
        (1 - (((a + 1 : Int) : α) - (a : α))) * (1 - ((b : α) - (b : α))) *
          ((channel (input.getPixel b (a + 1))).val : α) +
        (1 - (((a + 1 : Int) : α) - (a : α))) * (1 - (((b + 1 : Int) : α) - (b : α))) *
          ((channel (input.getPixel (b + 1) (a + 1))).val : α)) = channel (input.getPixel b a) := by
    intro channel
    have e : (1 - ((a : α) - (a : α))) * (1 - ((b : α) - (b : α))) *
          ((channel (input.getPixel b a)).val : α) +
        (1 - ((a : α) - (a : α))) * (1 - (((b + 1 : Int) : α) - (b : α))) *
          ((channel (input.getPixel (b + 1) a)).val : α) +
        (1 - (((a + 1 : Int) : α) - (a : α))) * (1 - ((b : α) - (b : α))) *
          ((channel (input.getPixel b (a + 1))).val : α) +
        (1 - (((a + 1 : Int) : α) - (a : α))) * (1 - (((b + 1 : Int) : α) - (b : α))) *
          ((channel (input.getPixel (b + 1) (a + 1))).val : α) =
        ((channel (input.getPixel b a)).val : α) := by
      push_cast
      ring
    rw [e, toByte_natCast _ (channel (input.getPixel b a)).isLt]
  unfold bilinearSample
  simp only [Int.floor_intCast]
  rw [key pixel.red, key pixel.green, key pixel.blue]

end ResamplerLemmas

/-! ## Lemmas on the inverse mapper -/

section MapperLemmas

variable {α : Type} [LinearOrderedField α]

/-- With unit scale, no rotation and no shear the inverse mapping is the translation
by `(-x_trans, -y_trans)`, as soon as `cos 0 = 1` and `sin 0 = 0`. -/
theorem linearTransformation_translate (m : CMath α) (x_trans y_trans : α)
    (hcos : m.cos (0 * m.M_PI / 180) = 1) (hsin : m.sin (0 * m.M_PI / 180) = 0)
    (x y : α) (x_max y_max : Int) :
    linearTransformation m x y x_max y_max 1 1 x_trans y_trans 0 0 =
      (x - x_trans, y - y_trans) := by
  unfold linearTransformation
  simp only [hcos, hsin, gt_iff_lt, zero_lt_one, or_self, if_true, div_one]
  refine Prod.ext ?_ ?_ <;> simp <;> ring

theorem cmath_cos_zero : cmath.cos (0 * cmath.M_PI / 180) = 1 := by
  simp [cmath]

theorem cmath_sin_zero : cmath.sin (0 * cmath.M_PI / 180) = 0 := by
  simp [cmath]

/-- The forward transform undoes the inverse mapper, for positive scales and a
cosine and sine with `cos^2 + sin^2 = 1`. -/
theorem forward_linearTransformation (m : CMath α) (x_max y_max : Int)
    (x_scale y_scale x_trans y_trans theta k_val : α)
    (hrot : m.cos (theta * m.M_PI / 180) * m.cos (theta * m.M_PI / 180) +
      m.sin (theta * m.M_PI / 180) * m.sin (theta * m.M_PI / 180) = 1)
    (hx : 0 < x_scale) (hy : 0 < y_scale) (q : α × α) :
    forward m (linearTransformation m q.1 q.2 x_max y_max
        x_scale y_scale x_trans y_trans theta k_val)
      x_max y_max x_scale y_scale x_trans y_trans theta k_val = q := by
  obtain ⟨qx, qy⟩ := q
  have hx0 : x_scale ≠ 0 := ne_of_gt hx
  have hy0 : y_scale ≠ 0 := ne_of_gt hy
  unfold forward linearTransformation scaleStep shearStep rotateStep center
  simp only [gt_iff_lt, hx, true_or, if_true]
  generalize m.cos (theta * m.M_PI / 180) = c at hrot ⊢
  generalize m.sin (theta * m.M_PI / 180) = s at hrot ⊢
  generalize ((Int.tdiv x_max 2 : Int) : α) = cx
  generalize ((Int.tdiv y_max 2 : Int) : α) = cy
  have hu : x_scale * ((qx - cx - x_trans) / x_scale) = qx - cx - x_trans := by
    field_simp
  have hv : y_scale * ((qy - cy - y_trans) / y_scale) = qy - cy - y_trans := by
    field_simp
  generalize (qx - cx - x_trans) / x_scale = u at hu ⊢
  generalize (qy - cy - y_trans) / y_scale = v at hv ⊢
  refine Prod.ext ?_ ?_
  · simp only [Prod.fst_add, Prod.fst_sub, Prod.snd_sub, Prod.snd_add]
    linear_combination (x_scale * u) * hrot + hu
  · simp only [Prod.fst_add, Prod.fst_sub, Prod.snd_sub, Prod.snd_add]
    linear_combination (y_scale * v) * hrot + hv

/-- The inverse mapper undoes the forward transform, for positive scales and a
cosine and sine with `cos^2 + sin^2 = 1`. -/
theorem linearTransformation_forward (m : CMath α) (x_max y_max : Int)
    (x_scale y_scale x_trans y_trans theta k_val : α)
    (hrot : m.cos (theta * m.M_PI / 180) * m.cos (theta * m.M_PI / 180) +
      m.sin (theta * m.M_PI / 180) * m.sin (theta * m.M_PI / 180) = 1)
    (hx : 0 < x_scale) (hy : 0 < y_scale) (p : α × α) :
    linearTransformation m
      (forward m p x_max y_max x_scale y_scale x_trans y_trans theta k_val).1
      (forward m p x_max y_max x_scale y_scale x_trans y_trans theta k_val).2
      x_max y_max x_scale y_scale x_trans y_trans theta k_val = p := by
  obtain ⟨px, py⟩ := p
  have hx0 : x_scale ≠ 0 := ne_of_gt hx
  have hy0 : y_scale ≠ 0 := ne_of_gt hy
  unfold forward linearTransformation scaleStep shearStep rotateStep center
  simp only [gt_iff_lt, hx, true_or, if_true]
  generalize m.cos (theta * m.M_PI / 180) = c at hrot ⊢
  generalize m.sin (theta * m.M_PI / 180) = s at hrot ⊢
  generalize ((Int.tdiv x_max 2 : Int) : α) = cx
  generalize ((Int.tdiv y_max 2 : Int) : α) = cy
  simp only [Prod.fst_add, Prod.fst_sub, Prod.snd_sub, Prod.snd_add]
  have e1 : ∀ w : α, (x_scale * w + cx + x_trans - cx - x_trans) / x_scale = w := by
    intro w
    rw [show x_scale * w + cx + x_trans - cx - x_trans = x_scale * w by ring]
    exact mul_div_cancel_left₀ w hx0
  have e2 : ∀ w : α, (y_scale * w + cy + y_trans - cy - y_trans) / y_scale = w := by
    intro w
    rw [show y_scale * w + cy + y_trans - cy - y_trans = y_scale * w by ring]
    exact mul_div_cancel_left₀ w hy0
  rw [e1, e2]
  refine Prod.ext ?_ ?_
  · linear_combination (px - cx) * hrot
  · linear_combination (py - cy) * hrot
/-- Without translation the forward transform is the chain rotate, shear, scale about
the center. -/
theorem forward_zero_trans (m : CMath α) (p : α × α) (x_max y_max : Int)
    (x_scale y_scale theta k_val : α) :
    forward m p x_max y_max x_scale y_scale 0 0 theta k_val =
      chainRotateShearScale m p x_max y_max x_scale y_scale theta k_val := by
  unfold forward chainRotateShearScale
  refine Prod.ext ?_ ?_ <;> simp

theorem cmath_rot (theta : ℝ) :
    cmath.cos (theta * cmath.M_PI / 180) * cmath.cos (theta * cmath.M_PI / 180) +
      cmath.sin (theta * cmath.M_PI / 180) * cmath.sin (theta * cmath.M_PI / 180) = 1 := by
  have h := Real.cos_sq_add_sin_sq (theta * Real.pi / 180)
  simp only [cmath]
  linear_combination h

end MapperLemmas

/-! ## Lemmas on the orchestration loop -/

section LoopLemmas

variable {α : Type} [LinearOrderedField α] [FloorRing α]
variable (m : CMath α) (input : Image) (x_scale y_scale x_trans y_trans theta k_val : α)

/-- The image left by one visit. -/
theorem visit_fst (st : Image × List Access) (i j : Nat) :
    (visit m input x_scale y_scale x_trans y_trans theta k_val st i j).1 =
      if sampleInside input
          (sourceOf m st.1.cols st.1.rows x_scale y_scale x_trans y_trans theta k_val i j).1
          (sourceOf m st.1.cols st.1.rows x_scale y_scale x_trans y_trans theta k_val i j).2
      then st.1.setPixel (j : Int) (i : Int) (bilinearSample input
          (sourceOf m st.1.cols st.1.rows x_scale y_scale x_trans y_trans theta k_val i j).1
          (sourceOf m st.1.cols st.1.rows x_scale y_scale x_trans y_trans theta k_val i j).2)
      else st.1 := by
  unfold visit sourceOf
  simp only [bilinearInterpolation_eq, Image.getCols, Image.getRows]
  split <;> rfl

theorem visit_cols (st : Image × List Access) (i j : Nat) :
    (visit m input x_scale y_scale x_trans y_trans theta k_val st i j).1.cols = st.1.cols := by
  rw [visit_fst]
  split <;> rfl

theorem visit_rows (st : Image × List Access) (i j : Nat) :
    (visit m input x_scale y_scale x_trans y_trans theta k_val st i j).1.rows = st.1.rows := by
  rw [visit_fst]
  split <;> rfl

/-- Every access logged by one visit is either an older one, a read inside the input
image, or the write at the visited position. -/
theorem visit_snd (st : Image × List Access) (i j : Nat) (a : Access)
    (ha : a ∈ (visit m input x_scale y_scale x_trans y_trans theta k_val st i j).2) :
    a ∈ st.2 ∨ (∃ row col, a = Access.read row col ∧ input.inBounds row col) ∨
      a = Access.write (j : Int) (i : Int) := by
  unfold visit at ha
  rcases List.mem_append.1 ha with h | h
  · exact Or.inl h
  · exact Or.inr (bilinearInterpolation_log _ _ _ _ _ _ a h)

/-- The output image after the pixels of a list have been visited, in any order: its
size is unchanged and a pixel holds the bilinear sample when it was visited and its
footprint lies inside the input image, and its old value otherwise. -/
theorem foldl_visit (outCols outRows : Nat) (order : List (Nat × Nat)) :
    ∀ st : Image × List Access, st.1.cols = outCols → st.1.rows = outRows →
      (order.foldl (fun st a =>
          visit m input x_scale y_scale x_trans y_trans theta k_val st a.1 a.2) st).1.cols = outCols ∧
      (order.foldl (fun st a =>
          visit m input x_scale y_scale x_trans y_trans theta k_val st a.1 a.2) st).1.rows = outRows ∧
      ∀ i j : Nat,
        (order.foldl (fun st a =>
          visit m input x_scale y_scale x_trans y_trans theta k_val st a.1 a.2) st).1.getPixel j i =
        if (i, j) ∈ order ∧ sampleInside input
            (sourceOf m outCols outRows x_scale y_scale x_trans y_trans theta k_val i j).1
            (sourceOf m outCols outRows x_scale y_scale x_trans y_trans theta k_val i j).2
        then bilinearSample input
            (sourceOf m outCols outRows x_scale y_scale x_trans y_trans theta k_val i j).1
            (sourceOf m outCols outRows x_scale y_scale x_trans y_trans theta k_val i j).2
        else st.1.getPixel j i := by
  induction order with
  | nil =>
    intro st hc hr
    exact ⟨hc, hr, fun i j => by simp⟩
  | cons a rest ih =>
    intro st hc hr
    have hc1 := visit_cols m input x_scale y_scale x_trans y_trans theta k_val st a.1 a.2
    have hr1 := visit_rows m input x_scale y_scale x_trans y_trans theta k_val st a.1 a.2
    obtain ⟨h1, h2, h3⟩ := ih _ (hc1.trans hc) (hr1.trans hr)
    refine ⟨h1, h2, fun i j => ?_⟩
    rw [List.foldl_cons, h3 i j, visit_fst, hc, hr]
    by_cases hin : (i, j) ∈ rest ∧ sampleInside input
        (sourceOf m outCols outRows x_scale y_scale x_trans y_trans theta k_val i j).1
        (sourceOf m outCols outRows x_scale y_scale x_trans y_trans theta k_val i j).2
    · rw [if_pos hin, if_pos ⟨List.mem_cons_of_mem _ hin.1, hin.2⟩]
    · rw [if_neg hin]
      by_cases ha : a = (i, j)
      · subst ha
        by_cases hs : sampleInside input
            (sourceOf m outCols outRows x_scale y_scale x_trans y_trans theta k_val i j).1
            (sourceOf m outCols outRows x_scale y_scale x_trans y_trans theta k_val i j).2
        · rw [if_pos hs, if_pos ⟨List.mem_cons_self _ _, hs⟩]
          simp [Image.getPixel, Image.setPixel]
        · rw [if_neg hs, if_neg (fun h => hs h.2)]
      · have hne : ¬ ((i, j) ∈ a :: rest ∧ sampleInside input
            (sourceOf m outCols outRows x_scale y_scale x_trans y_trans theta k_val i j).1
            (sourceOf m outCols outRows x_scale y_scale x_trans y_trans theta k_val i j).2) := by
          rintro ⟨hmem, hs⟩
          rcases List.mem_cons.1 hmem with h | h
          · exact ha h.symm
          · exact hin ⟨h, hs⟩
        rw [if_neg hne]
        split
        · have hij : ¬ (((j : Int) = (a.2 : Int)) ∧ ((i : Int) = (a.1 : Int))) := by
            rintro ⟨e1, e2⟩
            apply ha
            have e1n : j = a.2 := by exact_mod_cast e1
            have e2n : i = a.1 := by exact_mod_cast e2
            exact Prod.ext e2n.symm e1n.symm
          simp only [Image.getPixel, Image.setPixel]
          exact if_neg hij
        · rfl

/-- The access log after the pixels of a list have been visited. -/
theorem foldl_visit_log (outCols outRows : Nat) (order : List (Nat × Nat))
    (horder : ∀ a ∈ order, a.1 < outCols ∧ a.2 < outRows) :
    ∀ st : Image × List Access, ∀ a ∈ (order.foldl (fun st a =>
          visit m input x_scale y_scale x_trans y_trans theta k_val st a.1 a.2) st).2,
      a ∈ st.2 ∨ (∃ row col, a = Access.read row col ∧ input.inBounds row col) ∨
        ∃ i j : Nat, i < outCols ∧ j < outRows ∧ a = Access.write (j : Int) (i : Int) := by
  induction order with
  | nil =>
    intro st a ha
    exact Or.inl ha
  | cons b rest ih =>
    intro st a ha
    rw [List.foldl_cons] at ha
    rcases ih (fun c hc => horder c (List.mem_cons_of_mem _ hc)) _ a ha with h | h | h
    · rcases visit_snd m input x_scale y_scale x_trans y_trans theta k_val st b.1 b.2 a h
        with h1 | h1 | h1
      · exact Or.inl h1
      · exact Or.inr (Or.inl h1)
      · exact Or.inr (Or.inr ⟨b.1, b.2, (horder b (List.mem_cons_self _ _)).1,
          (horder b (List.mem_cons_self _ _)).2, h1⟩)
    · exact Or.inr (Or.inl h)
    · exact Or.inr (Or.inr h)

theorem mem_loopOrder (outCols outRows : Nat) (a : Nat × Nat) :
    a ∈ loopOrder outCols outRows ↔ a.1 < outCols ∧ a.2 < outRows := by
  obtain ⟨i, j⟩ := a
  simp only [loopOrder, List.mem_flatMap, List.mem_range, List.mem_map, Prod.mk.injEq]
  constructor
  · rintro ⟨i1, hi, j1, hj, rfl, rfl⟩
    exact ⟨hi, hj⟩
  · rintro ⟨hi, hj⟩
    exact ⟨i, hi, j, hj, rfl, rfl⟩

/-- The nested loops of `createOutputImage` visit the pixels in the order `loopOrder`. -/
theorem createOutputImage_eq_In (output : Image) :
    createOutputImage m input output x_scale y_scale x_trans y_trans theta k_val =
      createOutputImageIn m input output x_scale y_scale x_trans y_trans theta k_val
        (loopOrder output.cols output.rows) := by
  have key : ∀ (colList : List Nat) (st : Image × List Access), st.1.rows = output.rows →
      colList.foldl (fun st i => (List.range st.1.rows).foldl
          (fun st j => visit m input x_scale y_scale x_trans y_trans theta k_val st i j) st) st =
        (colList.flatMap (fun i => (List.range output.rows).map (fun j => (i, j)))).foldl
          (fun st a => visit m input x_scale y_scale x_trans y_trans theta k_val st a.1 a.2) st := by
    intro colList
    induction colList with
    | nil => intro st _; rfl
    | cons c rest ih =>
      intro st hr
      have hinner : (List.range st.1.rows).foldl
          (fun st j => visit m input x_scale y_scale x_trans y_trans theta k_val st c j) st =
          ((List.range output.rows).map (fun j => (c, j))).foldl
            (fun st a => visit m input x_scale y_scale x_trans y_trans theta k_val st a.1 a.2) st := by
        rw [List.foldl_map, hr]
      rw [List.foldl_cons, List.flatMap_cons, List.foldl_append, hinner]
      apply ih
      exact (foldl_visit m input x_scale y_scale x_trans y_trans theta k_val st.1.cols
        output.rows _ st rfl hr).2.1
  unfold createOutputImage createOutputImageIn loopOrder
  exact key _ _ rfl

/-- The pixel at an output position after the positions of a list containing it have
been visited. -/
theorem createOutputImageIn_getPixel (output : Image) (order : List (Nat × Nat))
    (i j : Nat) (hmem : (i, j) ∈ order) :
    (createOutputImageIn m input output x_scale y_scale x_trans y_trans theta k_val
        order).1.getPixel (j : Int) (i : Int) =
      if sampleInside input
          (sourceOf m output.cols output.rows x_scale y_scale x_trans y_trans theta k_val i j).1
          (sourceOf m output.cols output.rows x_scale y_scale x_trans y_trans theta k_val i j).2
      then bilinearSample input
          (sourceOf m output.cols output.rows x_scale y_scale x_trans y_trans theta k_val i j).1
          (sourceOf m output.cols output.rows x_scale y_scale x_trans y_trans theta k_val i j).2
      else output.getPixel (j : Int) (i : Int) := by
  have h := (foldl_visit m input x_scale y_scale x_trans y_trans theta k_val
    output.cols output.rows order (output, []) rfl rfl).2.2 i j
  simp only [hmem, true_and] at h
  exact h

/-- The pixel at an output position after `createOutputImage`. -/
theorem createOutputImage_getPixel (output : Image) (i j : Nat)
    (hi : i < output.cols) (hj : j < output.rows) :
    (createOutputImage m input output x_scale y_scale x_trans y_trans theta k_val).1.getPixel
        (j : Int) (i : Int) =
      if sampleInside input
          (sourceOf m output.cols output.rows x_scale y_scale x_trans y_trans theta k_val i j).1
          (sourceOf m output.cols output.rows x_scale y_scale x_trans y_trans theta k_val i j).2
      then bilinearSample input
          (sourceOf m output.cols output.rows x_scale y_scale x_trans y_trans theta k_val i j).1
          (sourceOf m output.cols output.rows x_scale y_scale x_trans y_trans theta k_val i j).2
      else output.getPixel (j : Int) (i : Int) := by
  rw [createOutputImage_eq_In]
  exact createOutputImageIn_getPixel m input x_scale y_scale x_trans y_trans theta k_val
    output _ i j ((mem_loopOrder _ _ _).2 ⟨hi, hj⟩)

/-- The size of the output image after `createOutputImage`. -/
theorem createOutputImage_size (output : Image) :
    (createOutputImage m input output x_scale y_scale x_trans y_trans theta k_val).1.rows
        = output.rows ∧
    (createOutputImage m input output x_scale y_scale x_trans y_trans theta k_val).1.cols
        = output.cols := by
  rw [createOutputImage_eq_In]
  have h := foldl_visit m input x_scale y_scale x_trans y_trans theta k_val
    output.cols output.rows (loopOrder output.cols output.rows) (output, []) rfl rfl
  exact ⟨h.2.1, h.1⟩

/-- A pure translation by an integer vector `(dx, dy)`: the output pixel (row `j`,
column `i`) is the input pixel at (row `j - dy`, column `i - dx`) when that position and
its right and lower neighbours lie inside the input image, and is unchanged otherwise. -/
theorem createOutputImage_translate
    (hcos : m.cos (0 * m.M_PI / 180) = 1) (hsin : m.sin (0 * m.M_PI / 180) = 0)
    (output : Image) (dx dy : Int) (i j : Nat) (hi : i < output.cols) (hj : j < output.rows) :
    (createOutputImage m input output 1 1 ((dx : Int) : α) ((dy : Int) : α) 0 0).1.getPixel
        (j : Int) (i : Int) =
      if (0 ≤ (i : Int) - dx ∧ (i : Int) - dx + 1 < input.getCols) ∧
          (0 ≤ (j : Int) - dy ∧ (j : Int) - dy + 1 < input.getRows)
      then input.getPixel ((j : Int) - dy) ((i : Int) - dx)
      else output.getPixel (j : Int) (i : Int) := by
  rw [createOutputImage_getPixel m input 1 1 ((dx : Int) : α) ((dy : Int) : α) 0 0 output i j hi hj]
  have hsrc : sourceOf m output.cols output.rows 1 1 ((dx : Int) : α) ((dy : Int) : α) 0 0 i j =
      ((((i : Int) - dx : Int) : α), (((j : Int) - dy : Int) : α)) := by
    unfold sourceOf
    rw [linearTransformation_translate m ((dx : Int) : α) ((dy : Int) : α) hcos hsin]
    push_cast
    rfl
  rw [hsrc]
  simp only [sampleInside_intCast, bilinearSample_intCast]

end LoopLemmas

/-! ## The orchestration loop and the safety of the accesses -/

section LoopClaims

variable {α : Type} [LinearOrderedField α] [FloorRing α]

/-- C1: `createOutputImage` leaves the row and column counts of the output image
unchanged, and every output pixel (row `j`, column `i`) inside the output image ends
as a function of `(i, j)`, the input image and the six parameters only: with
`(srcX, srcY) = linearTransformation(i, j, outCols, outRows, params)` it is the
bilinear sample of the input at `(srcX, srcY)` when `floor srcX`, `floor srcX + 1` lie
in `[0, inCols)` and `floor srcY`, `floor srcY + 1` lie in `[0, inRows)`, and otherwise
the value the pixel had before the call.  In particular visiting the pixels in any
other order that enumerates the output positions gives the same pixel. -/
theorem createOutputImage_pixelwise (m : CMath α) (input output : Image)
    (x_scale y_scale x_trans y_trans theta k_val : α) :
    (createOutputImage m input output x_scale y_scale x_trans y_trans theta k_val).1.rows
        = output.rows ∧
    (createOutputImage m input output x_scale y_scale x_trans y_trans theta k_val).1.cols
        = output.cols ∧
    ∀ i j : Nat, i < output.cols → j < output.rows →
      ((createOutputImage m input output x_scale y_scale x_trans y_trans theta k_val).1.getPixel
          (j : Int) (i : Int) =
        if sampleInside input
            (linearTransformation m ((i : Int) : α) ((j : Int) : α) output.getCols output.getRows
              x_scale y_scale x_trans y_trans theta k_val).1
            (linearTransformation m ((i : Int) : α) ((j : Int) : α) output.getCols output.getRows
              x_scale y_scale x_trans y_trans theta k_val).2
        then bilinearSample input
            (linearTransformation m ((i : Int) : α) ((j : Int) : α) output.getCols output.getRows
              x_scale y_scale x_trans y_trans theta k_val).1
            (linearTransformation m ((i : Int) : α) ((j : Int) : α) output.getCols output.getRows
              x_scale y_scale x_trans y_trans theta k_val).2
        else output.getPixel (j : Int) (i : Int)) ∧
      ∀ order : List (Nat × Nat),
        (∀ a : Nat × Nat, a ∈ order ↔ a.1 < output.cols ∧ a.2 < output.rows) →
        (createOutputImageIn m input output x_scale y_scale x_trans y_trans theta k_val
            order).1.getPixel (j : Int) (i : Int) =
          (createOutputImage m input output x_scale y_scale x_trans y_trans theta k_val).1.getPixel
            (j : Int) (i : Int) := by
  have hsize := createOutputImage_size m input x_scale y_scale x_trans y_trans theta k_val output
  refine ⟨hsize.1, hsize.2, fun i j hi hj => ⟨?_, fun order horder => ?_⟩⟩
  · exact createOutputImage_getPixel m input x_scale y_scale x_trans y_trans theta k_val
      output i j hi hj
  · rw [createOutputImage_getPixel m input x_scale y_scale x_trans y_trans theta k_val
      output i j hi hj]
    exact createOutputImageIn_getPixel m input x_scale y_scale x_trans y_trans theta k_val
      output order i j ((horder (i, j)).2 ⟨hi, hj⟩)

/-- C1 at a concrete input: a 2x2 red image, a blank 2x2 output, the identity
parameters, pixel (0, 0) and the pixels visited in the reverse order. -/
theorem createOutputImage_pixelwise_witness :
    (0 < (Image.blank 2 2).cols ∧ 0 < (Image.blank 2 2).rows) ∧
    (createOutputImage cmath (Image.solid 2 2 ⟨255, 0, 0⟩) (Image.blank 2 2)
        1 1 0 0 0 0).1.rows = 2 ∧
    (createOutputImageIn cmath (Image.solid 2 2 ⟨255, 0, 0⟩) (Image.blank 2 2)
        1 1 0 0 0 0 [(1, 1), (1, 0), (0, 1), (0, 0)]).1.getPixel ((0 : Nat) : Int) ((0 : Nat) : Int) =
      (createOutputImage cmath (Image.solid 2 2 ⟨255, 0, 0⟩) (Image.blank 2 2)
        1 1 0 0 0 0).1.getPixel ((0 : Nat) : Int) ((0 : Nat) : Int) :=
  ⟨⟨by decide, by decide⟩,
    (createOutputImage_pixelwise cmath (Image.solid 2 2 ⟨255, 0, 0⟩) (Image.blank 2 2)
      1 1 0 0 0 0).1,
    ((createOutputImage_pixelwise cmath (Image.solid 2 2 ⟨255, 0, 0⟩) (Image.blank 2 2)
      1 1 0 0 0 0).2.2 0 0 (by decide) (by decide)).2 [(1, 1), (1, 0), (0, 1), (0, 0)]
      (by
        rintro ⟨i, j⟩
        simp only [List.mem_cons, Prod.mk.injEq, List.mem_singleton, List.not_mem_nil, or_false,
          Image.blank, Image.solid]
        omega)⟩

/-- C2: every `getPixel` call made by `bilinearInterpolation` (the four corner reads
and the read at `(int(y), int(x))`) lies inside the input image, for every real source
coordinate; every `getPixel` and `setPixel` call made through `createOutputImage` lies
inside the input, respectively the output image; and when `x` is exactly `cols - 1` or
`y` is exactly `rows - 1` the call reads nothing and writes nothing. -/
theorem accesses_in_bounds (m : CMath α) (input output : Image)
    (x_scale y_scale x_trans y_trans theta k_val : α)
    (x y : α) (x_outLoc y_outLoc : Int) :
    (∀ row col : Int,
      Access.read row col ∈ (bilinearInterpolation x y x_outLoc y_outLoc input output).2 →
        input.inBounds row col) ∧
    (∀ a ∈ (createOutputImage m input output x_scale y_scale x_trans y_trans theta k_val).2,
      Access.legal input output a) ∧
    ((x = ((input.getCols - 1 : Int) : α) ∨ y = ((input.getRows - 1 : Int) : α)) →
      bilinearInterpolation x y x_outLoc y_outLoc input output = (output, [])) := by
  refine ⟨fun row col h => ?_, fun a ha => ?_, fun h => ?_⟩
  · rcases bilinearInterpolation_log x y x_outLoc y_outLoc input output _ h with h1 | h1
    · obtain ⟨r, c, e, hb⟩ := h1
      cases e
      exact hb
    · cases h1
  · rw [createOutputImage_eq_In] at ha
    rcases foldl_visit_log m input x_scale y_scale x_trans y_trans theta k_val
      output.cols output.rows (loopOrder output.cols output.rows)
      (fun b hb => (mem_loopOrder _ _ b).1 hb) (output, []) a ha with h | h | h
    · exact absurd h (List.not_mem_nil a)
    · obtain ⟨r, c, e, hb⟩ := h
      subst e
      exact hb
    · obtain ⟨i, j, hi, hj, e⟩ := h
      subst e
      show output.inBounds (j : Int) (i : Int)
      unfold Image.inBounds Image.getRows Image.getCols
      omega
  · rw [bilinearInterpolation_eq, if_neg (not_sampleInside_of_last input x y h)]

/-- C2 at a concrete input: a source coordinate on the last column of a 2x2 image. -/
theorem accesses_in_bounds_witness :
    ((1 : ℝ) = (((Image.solid 2 2 ⟨255, 0, 0⟩).getCols - 1 : Int) : ℝ) ∨
      (0 : ℝ) = (((Image.solid 2 2 ⟨255, 0, 0⟩).getRows - 1 : Int) : ℝ)) ∧
    bilinearInterpolation (1 : ℝ) 0 0 0 (Image.solid 2 2 ⟨255, 0, 0⟩) (Image.blank 2 2) =
      (Image.blank 2 2, []) :=
  ⟨Or.inl (by norm_num [Image.getCols, Image.solid]),
    (accesses_in_bounds cmath (Image.solid 2 2 ⟨255, 0, 0⟩) (Image.blank 2 2) 1 1 0 0 0 0
      (1 : ℝ) 0 0 0).2.2 (Or.inl (by norm_num [Image.getCols, Image.solid]))⟩

end LoopClaims

/-! ## Identity and translation -/

section IdentityClaims

/-- C3: with the identity parameters and an output image of the same size as the
input, after `createOutputImage` every output pixel (row `j`, column `i`) with
`i < cols - 1` and `j < rows - 1` has exactly the red, green and blue values of the
input pixel at (row `j`, column `i`). -/
theorem identity_reproduces_interior (input output : Image)
    (hrows : output.rows = input.rows) (hcols : output.cols = input.cols)
    (i j : Nat) (hi : (i : Int) < input.getCols - 1) (hj : (j : Int) < input.getRows - 1) :
    ((createOutputImage cmath input output 1 1 0 0 0 0).1.getPixel (j : Int) (i : Int)).red =
        (input.getPixel (j : Int) (i : Int)).red ∧
    ((createOutputImage cmath input output 1 1 0 0 0 0).1.getPixel (j : Int) (i : Int)).green =
        (input.getPixel (j : Int) (i : Int)).green ∧
    ((createOutputImage cmath input output 1 1 0 0 0 0).1.getPixel (j : Int) (i : Int)).blue =
        (input.getPixel (j : Int) (i : Int)).blue := by
  unfold Image.getCols at hi
  unfold Image.getRows at hj
  have h := createOutputImage_translate cmath input cmath_cos_zero cmath_sin_zero output 0 0 i j
    (by omega) (by omega)
  simp only [Int.cast_zero, sub_zero] at h
  rw [h, if_pos (by unfold Image.getCols Image.getRows; omega)]
  exact ⟨rfl, rfl, rfl⟩

/-- C3 at a concrete input: pixel (0, 0) of a 2x2 red image. -/
theorem identity_reproduces_interior_witness :
    ((Image.blank 2 2).rows = (Image.solid 2 2 ⟨255, 0, 0⟩).rows ∧
      (Image.blank 2 2).cols = (Image.solid 2 2 ⟨255, 0, 0⟩).cols ∧
      ((0 : Nat) : Int) < (Image.solid 2 2 ⟨255, 0, 0⟩).getCols - 1 ∧
      ((0 : Nat) : Int) < (Image.solid 2 2 ⟨255, 0, 0⟩).getRows - 1) ∧
    ((createOutputImage cmath (Image.solid 2 2 ⟨255, 0, 0⟩) (Image.blank 2 2)
        1 1 0 0 0 0).1.getPixel ((0 : Nat) : Int) ((0 : Nat) : Int)).red =
        ((Image.solid 2 2 ⟨255, 0, 0⟩).getPixel ((0 : Nat) : Int) ((0 : Nat) : Int)).red :=
  ⟨⟨rfl, rfl, by decide, by decide⟩,
    (identity_reproduces_interior (Image.solid 2 2 ⟨255, 0, 0⟩) (Image.blank 2 2) rfl rfl 0 0
      (by decide) (by decide)).1⟩

/-- C4, refuted as stated: for the 2x2 solid red input, the blank 2x2 output and the
identity parameters, not all four output pixels are red. -/
theorem solid_red_not_reproduced :
    ¬ ∀ i j : Nat, i < 2 → j < 2 →
      (createOutputImage cmath (Image.solid 2 2 ⟨255, 0, 0⟩) (Image.blank 2 2)
        1 1 0 0 0 0).1.getPixel (j : Int) (i : Int) = ⟨255, 0, 0⟩ := by
  intro h
  have h11 := h 1 1 (by decide) (by decide)
  have e := createOutputImage_translate cmath (Image.solid 2 2 ⟨255, 0, 0⟩)
    cmath_cos_zero cmath_sin_zero (Image.blank 2 2) 0 0 1 1 (by decide) (by decide)
  simp only [Int.cast_zero, sub_zero] at e
  rw [e, if_neg (by decide)] at h11
  exact absurd h11 (by decide)

/-- C4, amended: for the 2x2 solid red input, the blank 2x2 output and the identity
parameters, the output is 2x2, its pixel (row 0, column 0) is solid red and its other
three pixels keep the default value (black). -/
theorem solid_red_corner_only :
    (createOutputImage cmath (Image.solid 2 2 ⟨255, 0, 0⟩) (Image.blank 2 2)
        1 1 0 0 0 0).1.rows = 2 ∧
    (createOutputImage cmath (Image.solid 2 2 ⟨255, 0, 0⟩) (Image.blank 2 2)
        1 1 0 0 0 0).1.cols = 2 ∧
    (createOutputImage cmath (Image.solid 2 2 ⟨255, 0, 0⟩) (Image.blank 2 2)
        1 1 0 0 0 0).1.getPixel 0 0 = ⟨255, 0, 0⟩ ∧
    (createOutputImage cmath (Image.solid 2 2 ⟨255, 0, 0⟩) (Image.blank 2 2)
        1 1 0 0 0 0).1.getPixel 0 1 = ⟨0, 0, 0⟩ ∧
    (createOutputImage cmath (Image.solid 2 2 ⟨255, 0, 0⟩) (Image.blank 2 2)
        1 1 0 0 0 0).1.getPixel 1 0 = ⟨0, 0, 0⟩ ∧
    (createOutputImage cmath (Image.solid 2 2 ⟨255, 0, 0⟩) (Image.blank 2 2)
        1 1 0 0 0 0).1.getPixel 1 1 = ⟨0, 0, 0⟩ := by
  have hsize := createOutputImage_size cmath (Image.solid 2 2 ⟨255, 0, 0⟩) 1 1 0 0 0 0
    (Image.blank 2 2)
  have e := fun (i j : Nat) (hi : i < 2) (hj : j < 2) =>
    createOutputImage_translate cmath (Image.solid 2 2 ⟨255, 0, 0⟩)
      cmath_cos_zero cmath_sin_zero (Image.blank 2 2) 0 0 i j hi hj
  simp only [Int.cast_zero, sub_zero] at e
  refine ⟨hsize.1, hsize.2, ?_, ?_, ?_, ?_⟩
  · have h := e 0 0 (by decide) (by decide)
    rw [if_pos (by decide)] at h
    exact h
  · have h := e 1 0 (by decide) (by decide)
    rw [if_neg (by decide)] at h
    exact h
  · have h := e 0 1 (by decide) (by decide)
    rw [if_neg (by decide)] at h
    exact h
  · have h := e 1 1 (by decide) (by decide)
    rw [if_neg (by decide)] at h
    exact h

/-- C5, refuted as stated: translation by `(dx, dy) = (1, 0)` of a 2x2 solid red image
into a blank 2x2 output.  For the output pixel (row 1, column 1) the position
(row `1 - 0`, column `1 - 1`) lies inside the input image, yet the output pixel is not
the input pixel found there. -/
theorem translation_loses_last_row :
    ((0 : Int) ≤ 1 - 1 ∧ (1 : Int) - 1 < (Image.solid 2 2 ⟨255, 0, 0⟩).getCols) ∧
    ((0 : Int) ≤ 1 - 0 ∧ (1 : Int) - 0 < (Image.solid 2 2 ⟨255, 0, 0⟩).getRows) ∧
    (createOutputImage cmath (Image.solid 2 2 ⟨255, 0, 0⟩) (Image.blank 2 2)
        1 1 (((1 : Int) : ℝ)) (((0 : Int) : ℝ)) 0 0).1.getPixel ((1 : Nat) : Int) ((1 : Nat) : Int) ≠
      (Image.solid 2 2 ⟨255, 0, 0⟩).getPixel (((1 : Nat) : Int) - 0) (((1 : Nat) : Int) - 1) := by
  refine ⟨by decide, by decide, ?_⟩
  rw [createOutputImage_translate cmath (Image.solid 2 2 ⟨255, 0, 0⟩)
    cmath_cos_zero cmath_sin_zero (Image.blank 2 2) 1 0 1 1 (by decide) (by decide),
    if_neg (by decide)]
  decide

/-- C5, amended: for integers `dx`, `dy`, an input image and an output image of the
same size filled with a default value `background`, with `x_scale = y_scale = 1`,
`theta = 0`, `k_val = 0`, `x_trans = dx`, `y_trans = dy`, after `createOutputImage` the
output pixel (row `j`, column `i`) is the input pixel at (row `j - dy`, column `i - dx`)
whenever `0 ≤ i - dx < cols - 1` and `0 ≤ j - dy < rows - 1`, and is the default
background value otherwise. -/
theorem translation_shifts_content (input : Image) (background : pixel) (dx dy : Int)
    (i j : Nat) (hi : i < input.cols) (hj : j < input.rows) :
    (createOutputImage cmath input (Image.solid input.rows input.cols background)
        1 1 ((dx : Int) : ℝ) ((dy : Int) : ℝ) 0 0).1.getPixel (j : Int) (i : Int) =
      if (0 ≤ (i : Int) - dx ∧ (i : Int) - dx < input.getCols - 1) ∧
          (0 ≤ (j : Int) - dy ∧ (j : Int) - dy < input.getRows - 1)
      then input.getPixel ((j : Int) - dy) ((i : Int) - dx)
      else background := by
  rw [createOutputImage_translate cmath input cmath_cos_zero cmath_sin_zero
    (Image.solid input.rows input.cols background) dx dy i j hi hj]
  by_cases h : (0 ≤ (i : Int) - dx ∧ (i : Int) - dx < input.getCols - 1) ∧
      (0 ≤ (j : Int) - dy ∧ (j : Int) - dy < input.getRows - 1)
  · rw [if_pos h, if_pos ⟨⟨h.1.1, by omega⟩, h.2.1, by omega⟩]
  · rw [if_neg h, if_neg (fun h2 => h ⟨⟨h2.1.1, by omega⟩, h2.2.1, by omega⟩)]
    rfl

/-- C5 (amended) at a concrete input: translation by `(1, 0)` of a 2x2 red image,
output pixel (row 0, column 1). -/
theorem translation_shifts_content_witness :
    (1 < (Image.solid 2 2 ⟨255, 0, 0⟩).cols ∧ 0 < (Image.solid 2 2 ⟨255, 0, 0⟩).rows) ∧
    (createOutputImage cmath (Image.solid 2 2 ⟨255, 0, 0⟩) (Image.solid 2 2 ⟨0, 0, 0⟩)
        1 1 (((1 : Int) : ℝ)) (((0 : Int) : ℝ)) 0 0).1.getPixel ((0 : Nat) : Int) ((1 : Nat) : Int) =
      if (0 ≤ ((1 : Nat) : Int) - 1 ∧
            ((1 : Nat) : Int) - 1 < (Image.solid 2 2 ⟨255, 0, 0⟩).getCols - 1) ∧
          (0 ≤ ((0 : Nat) : Int) - 0 ∧
            ((0 : Nat) : Int) - 0 < (Image.solid 2 2 ⟨255, 0, 0⟩).getRows - 1)
      then (Image.solid 2 2 ⟨255, 0, 0⟩).getPixel (((0 : Nat) : Int) - 0) (((1 : Nat) : Int) - 1)
      else ⟨0, 0, 0⟩ :=
  ⟨⟨by decide, by decide⟩,
    translation_shifts_content (Image.solid 2 2 ⟨255, 0, 0⟩) ⟨0, 0, 0⟩ 1 0 1 0
      (by decide) (by decide)⟩

end IdentityClaims

/-! ## The inverse mapper -/

section MapperClaims

variable {α : Type} [LinearOrderedField α]

/-- C6: for every rotation angle, every shear, every pair of positive scales and every
image size, with zero translation `linearTransformation` maps the center
`(x_max / 2, y_max / 2)` (integer division) to itself. -/
theorem center_is_fixed (m : CMath α) (x_max y_max : Int) (x_scale y_scale theta k_val : α)
    (hx : 0 < x_scale) (hy : 0 < y_scale) :
    linearTransformation m ((Int.tdiv x_max 2 : Int) : α) ((Int.tdiv y_max 2 : Int) : α)
        x_max y_max x_scale y_scale 0 0 theta k_val =
      (((Int.tdiv x_max 2 : Int) : α), ((Int.tdiv y_max 2 : Int) : α)) := by
  have hy0 : y_scale ≠ 0 := ne_of_gt hy
  unfold linearTransformation
  simp [hx]

/-- C6 at a concrete input: a 5x3 image, scales 2 and 3, angle 30, shear 1/2. -/
theorem center_is_fixed_witness :
    ((0 : ℝ) < 2 ∧ (0 : ℝ) < 3) ∧
    linearTransformation cmath (((Int.tdiv 5 2 : Int) : ℝ)) (((Int.tdiv 3 2 : Int) : ℝ))
        5 3 2 3 0 0 30 (1 / 2) =
      ((((Int.tdiv 5 2 : Int) : ℝ)), (((Int.tdiv 3 2 : Int) : ℝ))) :=
  ⟨⟨by norm_num, by norm_num⟩,
    center_is_fixed cmath 5 3 2 3 30 (1 / 2) (by norm_num) (by norm_num)⟩

/-- C7: for positive scales `linearTransformation` is the two-sided inverse of the
forward transform `F(p) = S*K*R*(p - c) + c + t`: `F(linearTransformation(q)) = q` for
every real point `q`, and `linearTransformation(F(p)) = p` for every real point `p`. -/
theorem inverse_of_forward (x_max y_max : Int)
    (x_scale y_scale x_trans y_trans theta k_val : ℝ)
    (hx : 0 < x_scale) (hy : 0 < y_scale) :
    (∀ q : ℝ × ℝ,
      forward cmath (linearTransformation cmath q.1 q.2 x_max y_max
          x_scale y_scale x_trans y_trans theta k_val)
        x_max y_max x_scale y_scale x_trans y_trans theta k_val = q) ∧
    (∀ p : ℝ × ℝ,
      linearTransformation cmath
        (forward cmath p x_max y_max x_scale y_scale x_trans y_trans theta k_val).1
        (forward cmath p x_max y_max x_scale y_scale x_trans y_trans theta k_val).2
        x_max y_max x_scale y_scale x_trans y_trans theta k_val = p) :=
  ⟨fun q => forward_linearTransformation cmath x_max y_max x_scale y_scale x_trans y_trans
      theta k_val (cmath_rot theta) hx hy q,
    fun p => linearTransformation_forward cmath x_max y_max x_scale y_scale x_trans y_trans
      theta k_val (cmath_rot theta) hx hy p⟩

/-- C7 at a concrete input: a 5x3 image, scales 2 and 3, translation (1, -1), angle 30,
shear 1/2 and the point (4, 2). -/
theorem inverse_of_forward_witness :
    ((0 : ℝ) < 2 ∧ (0 : ℝ) < 3) ∧
    forward cmath (linearTransformation cmath (4 : ℝ) 2 5 3 2 3 1 (-1) 30 (1 / 2))
      5 3 2 3 1 (-1) 30 (1 / 2) = ((4 : ℝ), (2 : ℝ)) :=
  ⟨⟨by norm_num, by norm_num⟩,
    (inverse_of_forward 5 3 2 3 1 (-1) 30 (1 / 2) (by norm_num) (by norm_num)).1 (4, 2)⟩

/-- C8, refuted as stated: with scales (2, 1), shear 1, angle 0 and center (0, 0), the
chain scale, shear, rotate does not send `linearTransformation (0, 1)` back to (0, 1). -/
theorem scale_shear_rotate_not_inverse :
    ((0 : ℝ) < 2 ∧ (0 : ℝ) < 1) ∧
    chainScaleShearRotate cmath (linearTransformation cmath (0 : ℝ) 1 0 0 2 1 0 0 0 1)
      0 0 2 1 0 1 ≠ ((0 : ℝ), (1 : ℝ)) := by
  refine ⟨⟨by norm_num, by norm_num⟩, ?_⟩
  intro h
  have h1 := congrArg Prod.fst h
  simp only [chainScaleShearRotate, linearTransformation, scaleStep, shearStep, rotateStep,
    center, cmath_cos_zero, cmath_sin_zero] at h1
  norm_num at h1

/-- C8, amended: for zero translation and positive scales `linearTransformation` is the
inverse of the forward chain applied in the order translate-to-origin, rotate, shear,
scale, translate-back: with `G(p) = S(K(R(p - c))) + c`, `G(linearTransformation(q)) = q`
for every real point `q`. -/
theorem rotate_shear_scale_inverse (x_max y_max : Int) (x_scale y_scale theta k_val : ℝ)
    (hx : 0 < x_scale) (hy : 0 < y_scale) (q : ℝ × ℝ) :
    chainRotateShearScale cmath
      (linearTransformation cmath q.1 q.2 x_max y_max x_scale y_scale 0 0 theta k_val)
      x_max y_max x_scale y_scale theta k_val = q := by
  rw [← forward_zero_trans]
  exact forward_linearTransformation cmath x_max y_max x_scale y_scale 0 0 theta k_val
    (cmath_rot theta) hx hy q

/-- C8 (amended) at the input of the counterexample. -/
theorem rotate_shear_scale_inverse_witness :
    ((0 : ℝ) < 2 ∧ (0 : ℝ) < 1) ∧
    chainRotateShearScale cmath (linearTransformation cmath (0 : ℝ) 1 0 0 2 1 0 0 0 1)
      0 0 2 1 0 1 = ((0 : ℝ), (1 : ℝ)) :=
  ⟨⟨by norm_num, by norm_num⟩,
    rotate_shear_scale_inverse 0 0 2 1 0 1 (by norm_num) (by norm_num) (0, 1)⟩

/-- C9: `linearTransformation` returns the result of the six steps in the stated order.
With `cx = x_max / 2`, `cy = y_max / 2` (integer-truncated), the point after the first
three steps is `((x - cx - x_trans) / x_scale, (y - cy - y_trans) / y_scale)` when
`x_scale > 0` or `y_scale > 0`, and `(x - cx - x_trans, y - cy - y_trans)` when both
scales are `<= 0`; then shear, rotation and recentering are applied to it. -/
theorem six_steps (m : CMath α) (x y : α) (x_max y_max : Int)
    (x_scale y_scale x_trans y_trans theta k_val : α) :
    ((x_scale > 0 ∨ y_scale > 0) →
      linearTransformation m x y x_max y_max x_scale y_scale x_trans y_trans theta k_val =
        shearRotateRecenter m
          ((x - ((Int.tdiv x_max 2 : Int) : α) - x_trans) / x_scale)
          ((y - ((Int.tdiv y_max 2 : Int) : α) - y_trans) / y_scale)
          x_max y_max theta k_val) ∧
    ((x_scale ≤ 0 ∧ y_scale ≤ 0) →
      linearTransformation m x y x_max y_max x_scale y_scale x_trans y_trans theta k_val =
        shearRotateRecenter m
          (x - ((Int.tdiv x_max 2 : Int) : α) - x_trans)
          (y - ((Int.tdiv y_max 2 : Int) : α) - y_trans)
          x_max y_max theta k_val) := by
  constructor
  · intro h
    unfold linearTransformation shearRotateRecenter
    simp only [if_pos h]
  · rintro ⟨h1, h2⟩
    have h : ¬ (x_scale > 0 ∨ y_scale > 0) := by
      rintro (h | h)
      · exact absurd h (not_lt.2 h1)
      · exact absurd h (not_lt.2 h2)
    unfold linearTransformation shearRotateRecenter
    simp only [if_neg h]

/-- C9 at a concrete input: scales (2, -1), so that the division is made on both
axes. -/
theorem six_steps_witness :
    ((2 : ℝ) > 0 ∨ (-1 : ℝ) > 0) ∧
    linearTransformation cmath (4 : ℝ) 2 5 3 2 (-1) 1 (-1) 30 (1 / 2) =
      shearRotateRecenter cmath
        (((4 : ℝ) - ((Int.tdiv 5 2 : Int) : ℝ) - 1) / 2)
        (((2 : ℝ) - ((Int.tdiv 3 2 : Int) : ℝ) - (-1)) / (-1))
        5 3 30 (1 / 2) :=
  ⟨Or.inl (by norm_num),
    (six_steps cmath (4 : ℝ) 2 5 3 2 (-1) 1 (-1) 30 (1 / 2)).1 (Or.inl (by norm_num))⟩

/-- C10, refuted as stated: with `x_scale = 2` and `y_scale = -1` one scale is `<= 0`,
yet the result differs from the result with both scales equal to 1. -/
theorem one_nonpositive_scale_still_scales :
    ((2 : ℝ) ≤ 0 ∨ (-1 : ℝ) ≤ 0) ∧
    linearTransformation cmath (2 : ℝ) 0 0 0 2 (-1) 0 0 0 0 ≠
      linearTransformation cmath (2 : ℝ) 0 0 0 1 1 0 0 0 0 := by
  refine ⟨Or.inr (by norm_num), ?_⟩
  intro h
  have h1 := congrArg Prod.fst h
  simp only [linearTransformation, cmath_cos_zero, cmath_sin_zero] at h1
  norm_num at h1

/-- C10, amended: whenever `x_scale <= 0` and `y_scale <= 0`, `linearTransformation`
returns the same result as with `x_scale = y_scale = 1`: scale is skipped on both
axes. -/
theorem nonpositive_scales_skip (m : CMath α) (x y : α) (x_max y_max : Int)
    (x_scale y_scale x_trans y_trans theta k_val : α)
    (hx : x_scale ≤ 0) (hy : y_scale ≤ 0) :
    linearTransformation m x y x_max y_max x_scale y_scale x_trans y_trans theta k_val =
      linearTransformation m x y x_max y_max 1 1 x_trans y_trans theta k_val := by
  have h : ¬ (x_scale > 0 ∨ y_scale > 0) := by
    rintro (h | h)
    · exact absurd h (not_lt.2 hx)
    · exact absurd h (not_lt.2 hy)
  have h1 : (1 : α) > 0 ∨ (1 : α) > 0 := Or.inl zero_lt_one
  unfold linearTransformation
  simp only [if_neg h, if_pos h1, div_one]

/-- C10 (amended) at a concrete input: scales (-2, 0). -/
theorem nonpositive_scales_skip_witness :
    ((-2 : ℝ) ≤ 0 ∧ (0 : ℝ) ≤ 0) ∧
    linearTransformation cmath (4 : ℝ) 2 5 3 (-2) 0 1 (-1) 30 (1 / 2) =
      linearTransformation cmath (4 : ℝ) 2 5 3 1 1 1 (-1) 30 (1 / 2) :=
  ⟨⟨by norm_num, le_refl _⟩,
    nonpositive_scales_skip cmath (4 : ℝ) 2 5 3 (-2) 0 1 (-1) 30 (1 / 2) (by norm_num) (le_refl _)⟩

end MapperClaims

/-! ## Division by zero and the quarter turn -/

section MapperClaims2

variable {α : Type} [LinearOrderedField α]

/-- The fallible mapper fails exactly when the scale guard passes and one of the
scales is zero; otherwise it returns what `linearTransformation` returns. -/
theorem linearTransformationChecked_eq (m : CMath α) (x y : α) (x_max y_max : Int)
    (x_scale y_scale x_trans y_trans theta k_val : α) :
    linearTransformationChecked m x y x_max y_max x_scale y_scale x_trans y_trans theta k_val =
      if (x_scale > 0 ∨ y_scale > 0) ∧ (x_scale = 0 ∨ y_scale = 0) then none
      else some (linearTransformation m x y x_max y_max
        x_scale y_scale x_trans y_trans theta k_val) := by
  unfold linearTransformationChecked linearTransformation checkedDiv
  by_cases hg : x_scale > 0 ∨ y_scale > 0
  · by_cases hx : x_scale = 0
    · have hy : 0 < y_scale := by
        rcases hg with h | h
        · rw [hx] at h
          exact absurd h (lt_irrefl 0)
        · exact h
      simp [hx, hy]
    · by_cases hy : y_scale = 0
      · have hx1 : 0 < x_scale := by
          rcases hg with h | h
          · exact h
          · rw [hy] at h
            exact absurd h (lt_irrefl 0)
        simp [hx, hy, hx1]
      · simp [hg, hx, hy]
  · simp [hg]

/-- C11, the code at the failing input `x_scale = 0`, `y_scale = 1`: the scale guard
passes because `y_scale > 0`, and the division `x / x_scale` divides by zero. -/
theorem zero_scale_is_divided_by :
    ((0 : ℝ) > 0 ∨ (1 : ℝ) > 0) ∧
    linearTransformationChecked cmath (3 : ℝ) 1 4 2 0 1 0 0 0 0 = none := by
  refine ⟨Or.inr (by norm_num), ?_⟩
  rw [linearTransformationChecked_eq]
  norm_num

theorem cmath_cos_quarter : cmath.cos (90 * cmath.M_PI / 180) = 0 := by
  have h : (90 : ℝ) * Real.pi / 180 = Real.pi / 2 := by ring
  simp only [cmath, h, Real.cos_pi_div_two]

theorem cmath_sin_quarter : cmath.sin (90 * cmath.M_PI / 180) = 1 := by
  have h : (90 : ℝ) * Real.pi / 180 = Real.pi / 2 := by ring
  simp only [cmath, h, Real.sin_pi_div_two]

/-- C13: with `theta = 90` and all other parameters identity, for every image size and
every output coordinate `(outX, outY)`, `linearTransformation` returns
`srcX = cx + (outY - cy)` and `srcY = cy - (outX - cx)` with `cx = x_max / 2`,
`cy = y_max / 2`; for a 4-column by 2-row image the corner (0, 0) maps to (1, 3) and the
corner (3, 1) maps to (2, 0). -/
theorem quarter_turn (x_max y_max : Int) (outX outY : ℝ) :
    linearTransformation cmath outX outY x_max y_max 1 1 0 0 90 0 =
      (((Int.tdiv x_max 2 : Int) : ℝ) + (outY - ((Int.tdiv y_max 2 : Int) : ℝ)),
        ((Int.tdiv y_max 2 : Int) : ℝ) - (outX - ((Int.tdiv x_max 2 : Int) : ℝ))) ∧
    linearTransformation cmath (0 : ℝ) 0 4 2 1 1 0 0 90 0 = ((1 : ℝ), (3 : ℝ)) ∧
    linearTransformation cmath (3 : ℝ) 1 4 2 1 1 0 0 90 0 = ((2 : ℝ), (0 : ℝ)) := by
  have key : ∀ (x_max y_max : Int) (outX outY : ℝ),
      linearTransformation cmath outX outY x_max y_max 1 1 0 0 90 0 =
        (((Int.tdiv x_max 2 : Int) : ℝ) + (outY - ((Int.tdiv y_max 2 : Int) : ℝ)),
          ((Int.tdiv y_max 2 : Int) : ℝ) - (outX - ((Int.tdiv x_max 2 : Int) : ℝ))) := by
    intro x_max y_max outX outY
    have h1 : (1 : ℝ) > 0 ∨ (1 : ℝ) > 0 := Or.inl zero_lt_one
    unfold linearTransformation
    simp only [if_pos h1, cmath_cos_quarter, cmath_sin_quarter, div_one]
    refine Prod.ext ?_ ?_ <;> simp <;> ring
  have h4 : Int.tdiv 4 2 = 2 := rfl
  have h2 : Int.tdiv 2 2 = 1 := rfl
  refine ⟨key x_max y_max outX outY, ?_, ?_⟩
  · rw [key, h4, h2]
    refine Prod.ext ?_ ?_ <;> norm_num
  · rw [key, h4, h2]
    refine Prod.ext ?_ ?_ <;> norm_num

end MapperClaims2

/-! ## Bilinear combinations -/

section Convexity

variable {α : Type} [LinearOrderedField α]

/-- A bilinear combination with fractional parts in `[0, 1]` stays between any lower and
upper bound of the four values. -/
theorem bilinear_between (fx fy a b c d lo hi : α)
    (hfx : 0 ≤ fx ∧ fx ≤ 1) (hfy : 0 ≤ fy ∧ fy ≤ 1)
    (ha : lo ≤ a ∧ a ≤ hi) (hb : lo ≤ b ∧ b ≤ hi) (hc : lo ≤ c ∧ c ≤ hi) (hd : lo ≤ d ∧ d ≤ hi) :
    lo ≤ (1 - fx) * (1 - fy) * a + (1 - fx) * fy * b + fx * (1 - fy) * c + fx * fy * d ∧
    (1 - fx) * (1 - fy) * a + (1 - fx) * fy * b + fx * (1 - fy) * c + fx * fy * d ≤ hi := by
  have gx : 0 ≤ 1 - fx := sub_nonneg.2 hfx.2
  have gy : 0 ≤ 1 - fy := sub_nonneg.2 hfy.2
  have w1 : 0 ≤ (1 - fx) * (1 - fy) := mul_nonneg gx gy
  have w2 : 0 ≤ (1 - fx) * fy := mul_nonneg gx hfy.1
  have w3 : 0 ≤ fx * (1 - fy) := mul_nonneg hfx.1 gy
  have w4 : 0 ≤ fx * fy := mul_nonneg hfx.1 hfy.1
  constructor
  · have e : (1 - fx) * (1 - fy) * a + (1 - fx) * fy * b + fx * (1 - fy) * c + fx * fy * d - lo =
        (1 - fx) * (1 - fy) * (a - lo) + (1 - fx) * fy * (b - lo) + fx * (1 - fy) * (c - lo) +
          fx * fy * (d - lo) := by ring
    have p : 0 ≤ (1 - fx) * (1 - fy) * (a - lo) + (1 - fx) * fy * (b - lo) +
        fx * (1 - fy) * (c - lo) + fx * fy * (d - lo) :=
      add_nonneg (add_nonneg (add_nonneg (mul_nonneg w1 (sub_nonneg.2 ha.1))
        (mul_nonneg w2 (sub_nonneg.2 hb.1))) (mul_nonneg w3 (sub_nonneg.2 hc.1)))
        (mul_nonneg w4 (sub_nonneg.2 hd.1))
    rw [← e] at p
    exact sub_nonneg.1 p
  · have e : hi - ((1 - fx) * (1 - fy) * a + (1 - fx) * fy * b + fx * (1 - fy) * c + fx * fy * d) =
        (1 - fx) * (1 - fy) * (hi - a) + (1 - fx) * fy * (hi - b) + fx * (1 - fy) * (hi - c) +
          fx * fy * (hi - d) := by ring
    have p : 0 ≤ (1 - fx) * (1 - fy) * (hi - a) + (1 - fx) * fy * (hi - b) +
        fx * (1 - fy) * (hi - c) + fx * fy * (hi - d) :=
      add_nonneg (add_nonneg (add_nonneg (mul_nonneg w1 (sub_nonneg.2 ha.2))
        (mul_nonneg w2 (sub_nonneg.2 hb.2))) (mul_nonneg w3 (sub_nonneg.2 hc.2)))
        (mul_nonneg w4 (sub_nonneg.2 hd.2))
    rw [← e] at p
    exact sub_nonneg.1 p

end Convexity

/-! ## More lemmas on the resampler -/

section ResamplerLemmas2

variable {α : Type} [LinearOrderedField α] [FloorRing α]

theorem neighbours_eq (v : α) : neighbours v = (⌊v⌋, ⌊v⌋ + 1) := by
  unfold neighbours
  simp only [widen_ceil]

theorem widens_iff (v : α) : widens v ↔ ∃ z : Int, v = (z : α) := by
  unfold widens
  constructor
  · intro h
    exact ⟨⌈v⌉, le_antisymm (Int.le_ceil v) h⟩
  · rintro ⟨z, rfl⟩
    rw [Int.ceil_intCast]

/-- `bilinearInterpolation` written with the per-axis indices `neighbours`, the bounds
check `boundsCheck` and the per-channel sums `interpolatedChannel`: the same program. -/
theorem bilinearInterpolation_neighbours (x y : α) (x_outLoc y_outLoc : Int)
    (input output : Image) :
    bilinearInterpolation x y x_outLoc y_outLoc input output =
      if boundsCheck input x y then
        (output.setPixel y_outLoc x_outLoc
          ⟨toByte (interpolatedChannel input x y pixel.red),
            toByte (interpolatedChannel input x y pixel.green),
            toByte (interpolatedChannel input x y pixel.blue)⟩,
          cornerReads (neighbours x).1 (neighbours x).2 (neighbours y).1 (neighbours y).2 ++
            cornerReads (neighbours x).1 (neighbours x).2 (neighbours y).1 (neighbours y).2 ++
            cornerReads (neighbours x).1 (neighbours x).2 (neighbours y).1 (neighbours y).2 ++
            [Access.read (toInt y) (toInt x), Access.write y_outLoc x_outLoc])
      else (output, []) :=
  rfl

theorem boundsCheck_iff_sampleInside (input : Image) (x y : α) :
    boundsCheck input x y ↔ sampleInside input x y := by
  unfold boundsCheck
  rw [neighbours_eq x, neighbours_eq y]
  exact (sampleInside_iff input x y).symm

/-- The footprint test in terms of the real coordinate. -/
theorem sampleInside_iff_real (input : Image) (x y : α) :
    sampleInside input x y ↔
      (0 ≤ x ∧ x < (input.getCols : α) - 1) ∧ (0 ≤ y ∧ y < (input.getRows : α) - 1) := by
  have hx : ⌊x⌋ + 1 < input.getCols ↔ x < (input.getCols : α) - 1 := by
    rw [← lt_sub_iff_add_lt, Int.floor_lt]
    push_cast
    rfl
  have hy : ⌊y⌋ + 1 < input.getRows ↔ y < (input.getRows : α) - 1 := by
    rw [← lt_sub_iff_add_lt, Int.floor_lt]
    push_cast
    rfl
  unfold sampleInside
  constructor
  · rintro ⟨⟨h1, _⟩, ⟨_, h4⟩, ⟨h5, _⟩, _, h8⟩
    exact ⟨⟨Int.floor_nonneg.1 h1, hx.1 h4⟩, Int.floor_nonneg.1 h5, hy.1 h8⟩
  · rintro ⟨⟨h1, h2⟩, h3, h4⟩
    have a1 := Int.floor_nonneg.2 h1
    have a2 := hx.2 h2
    have a3 := Int.floor_nonneg.2 h3
    have a4 := hy.2 h4
    refine ⟨⟨a1, ?_⟩, ⟨?_, a2⟩, ⟨a3, ?_⟩, ?_, a4⟩ <;> omega

/-- The pixel stored at the output location when the footprint lies inside the input. -/
theorem bilinearInterpolation_getPixel (x y : α) (x_outLoc y_outLoc : Int)
    (input output : Image) (h : sampleInside input x y) :
    (bilinearInterpolation x y x_outLoc y_outLoc input output).1.getPixel y_outLoc x_outLoc =
      bilinearSample input x y := by
  rw [bilinearInterpolation_eq, if_pos h]
  simp [Image.getPixel, Image.setPixel]

theorem bilinearSample_channels (input : Image) (x y : α) :
    (bilinearSample input x y).red = toByte (interpolatedChannel input x y pixel.red) ∧
    (bilinearSample input x y).green = toByte (interpolatedChannel input x y pixel.green) ∧
    (bilinearSample input x y).blue = toByte (interpolatedChannel input x y pixel.blue) := by
  unfold interpolatedChannel
  rw [neighbours_eq x, neighbours_eq y]
  exact ⟨rfl, rfl, rfl⟩

/-- The four weights in terms of the fractional parts of the coordinates. -/
theorem interpolationWeights_eq (x y : α) :
    interpolationWeights x y =
      ((1 - Int.fract x) * (1 - Int.fract y), (1 - Int.fract x) * Int.fract y,
        Int.fract x * (1 - Int.fract y), Int.fract x * Int.fract y) := by
  unfold interpolationWeights weights
  rw [neighbours_eq x, neighbours_eq y, ← Int.self_sub_floor x, ← Int.self_sub_floor y]
  refine Prod.ext ?_ (Prod.ext ?_ (Prod.ext ?_ ?_)) <;> push_cast <;> ring

/-- The sum of one channel is the sum of the corner values weighted by the four
weights. -/
theorem interpolatedChannel_eq (input : Image) (x y : α) (channel : pixel → byte) :
    interpolatedChannel input x y channel =
      (interpolationWeights x y).1 * ((cornerValues input x y channel).1 : α) +
      (interpolationWeights x y).2.1 * ((cornerValues input x y channel).2.1 : α) +
      (interpolationWeights x y).2.2.1 * ((cornerValues input x y channel).2.2.1 : α) +
      (interpolationWeights x y).2.2.2 * ((cornerValues input x y channel).2.2.2 : α) :=
  rfl

/-- The sum of one channel lies between any lower and upper bound of the four corner
values. -/
theorem interpolatedChannel_between (input : Image) (x y : α) (channel : pixel → byte)
    (lo hi : α)
    (h1 : lo ≤ ((cornerValues input x y channel).1 : α) ∧
      ((cornerValues input x y channel).1 : α) ≤ hi)
    (h2 : lo ≤ ((cornerValues input x y channel).2.1 : α) ∧
      ((cornerValues input x y channel).2.1 : α) ≤ hi)
    (h3 : lo ≤ ((cornerValues input x y channel).2.2.1 : α) ∧
      ((cornerValues input x y channel).2.2.1 : α) ≤ hi)
    (h4 : lo ≤ ((cornerValues input x y channel).2.2.2 : α) ∧
      ((cornerValues input x y channel).2.2.2 : α) ≤ hi) :
    lo ≤ interpolatedChannel input x y channel ∧ interpolatedChannel input x y channel ≤ hi := by
  rw [interpolatedChannel_eq, interpolationWeights_eq]
  exact bilinear_between (Int.fract x) (Int.fract y) _ _ _ _ lo hi
    ⟨Int.fract_nonneg x, le_of_lt (Int.fract_lt_one x)⟩
    ⟨Int.fract_nonneg y, le_of_lt (Int.fract_lt_one y)⟩ h1 h2 h3 h4

/-- The sum of one channel lies in `[0, 255]`. -/
theorem interpolatedChannel_range (input : Image) (x y : α) (channel : pixel → byte) :
    0 ≤ interpolatedChannel input x y channel ∧ interpolatedChannel input x y channel ≤ 255 := by
  have hb : ∀ b : byte, (0 : α) ≤ (b.val : α) ∧ (b.val : α) ≤ 255 := by
    intro b
    refine ⟨Nat.cast_nonneg _, ?_⟩
    have h : b.val ≤ 255 := Nat.le_of_lt_succ b.isLt
    exact_mod_cast h
  exact interpolatedChannel_between input x y channel 0 255 (hb _) (hb _) (hb _) (hb _)

/-- In the range `[0, 255]` the conversion to `byte` is the floor. -/
theorem toByte_val_of_range (v : α) (h0 : 0 ≤ v) (h1 : v ≤ 255) :
    (((toByte v).val : Nat) : Int) = ⌊v⌋ := by
  have f0 : 0 ≤ ⌊v⌋ := Int.floor_nonneg.2 h0
  have f1 : ⌊v⌋ ≤ 255 := by
    have h : ((⌊v⌋ : Int) : α) ≤ ((255 : Int) : α) := by
      push_cast
      exact le_trans (Int.floor_le v) h1
    exact_mod_cast h
  simp only [toByte, toInt_of_nonneg h0]
  omega

theorem floor_natCast_div_four (n : Nat) : ⌊((n : Nat) : α) / 4⌋ = ((n / 4 : Nat) : Int) := by
  rw [Int.floor_eq_iff, Int.cast_natCast]
  have hn : ((n : Nat) : α) = 4 * ((n / 4 : Nat) : α) + ((n % 4 : Nat) : α) := by
    have h := Nat.div_add_mod n 4
    exact_mod_cast h.symm
  have hr0 : (0 : α) ≤ ((n % 4 : Nat) : α) := Nat.cast_nonneg _
  have hr4 : ((n % 4 : Nat) : α) < 4 := by
    have h : n % 4 < 4 := Nat.mod_lt n (by decide)
    exact_mod_cast h
  have h4 : (0 : α) < 4 := by norm_num
  generalize ((n / 4 : Nat) : α) = q at hn ⊢
  generalize ((n % 4 : Nat) : α) = r at hn hr0 hr4
  constructor
  · rw [le_div_iff₀ h4]
    linarith
  · rw [div_lt_iff₀ h4]
    linarith

/-- The value stored for a channel is the floor of its weighted sum. -/
theorem toByte_interpolatedChannel (input : Image) (x y : α) (channel : pixel → byte) :
    (((toByte (interpolatedChannel input x y channel)).val : Nat) : Int) =
      ⌊interpolatedChannel input x y channel⌋ :=
  toByte_val_of_range _ (interpolatedChannel_range input x y channel).1
    (interpolatedChannel_range input x y channel).2

theorem floor_add_half (z : Int) : ⌊((z : Int) : α) + 1 / 2⌋ = z := by
  rw [Int.floor_eq_iff]
  constructor <;> linarith [(by norm_num : (0 : α) < 1 / 2), (by norm_num : (1 : α) / 2 < 1)]

theorem fract_add_half (z : Int) : Int.fract (((z : Int) : α) + 1 / 2) = 1 / 2 := by
  rw [← Int.self_sub_floor, floor_add_half]
  ring

/-- At the midpoint of four lattice corners the sum of one channel is the mean of the
four corner values. -/
theorem interpolatedChannel_midpoint (input : Image) (x1 y1 : Int) (channel : pixel → byte) :
    interpolatedChannel input (((x1 : Int) : α) + 1 / 2) (((y1 : Int) : α) + 1 / 2) channel =
      (((channel (input.getPixel y1 x1)).val + (channel (input.getPixel (y1 + 1) x1)).val +
        (channel (input.getPixel y1 (x1 + 1))).val +
        (channel (input.getPixel (y1 + 1) (x1 + 1))).val : Nat) : α) / 4 := by
  rw [interpolatedChannel_eq, interpolationWeights_eq, fract_add_half, fract_add_half]
  unfold cornerValues
  rw [neighbours_eq, neighbours_eq, floor_add_half, floor_add_half]
  push_cast
  ring

end ResamplerLemmas2

/-! ## The resampler -/

section ResamplerClaims

variable {α : Type} [LinearOrderedField α] [FloorRing α]

/-- C12: for a source coordinate at the exact midpoint of four lattice corners
(`x = x1 + 1/2`, `y = y1 + 1/2`, footprint `x1`, `x1 + 1`, `y1`, `y1 + 1` inside the input
image) each of the four weights equals 1/4, the output pixel is written, and each channel
written is the mean of the four corner values of that channel truncated to an integer,
`floor((a + b + c + d) / 4)`. -/
theorem midpoint_is_mean (input output : Image) (x1 y1 x_outLoc y_outLoc : Int)
    (hx : 0 ≤ x1 ∧ x1 + 1 < input.getCols) (hy : 0 ≤ y1 ∧ y1 + 1 < input.getRows) :
    interpolationWeights (((x1 : Int) : α) + 1 / 2) (((y1 : Int) : α) + 1 / 2) =
      ((1 / 4 : α), (1 / 4 : α), (1 / 4 : α), (1 / 4 : α)) ∧
    Access.write y_outLoc x_outLoc ∈
      (bilinearInterpolation (((x1 : Int) : α) + 1 / 2) (((y1 : Int) : α) + 1 / 2)
        x_outLoc y_outLoc input output).2 ∧
    (((bilinearInterpolation (((x1 : Int) : α) + 1 / 2) (((y1 : Int) : α) + 1 / 2)
        x_outLoc y_outLoc input output).1.getPixel y_outLoc x_outLoc).red.val =
      ((input.getPixel y1 x1).red.val + (input.getPixel (y1 + 1) x1).red.val +
        (input.getPixel y1 (x1 + 1)).red.val + (input.getPixel (y1 + 1) (x1 + 1)).red.val) / 4) ∧
    (((bilinearInterpolation (((x1 : Int) : α) + 1 / 2) (((y1 : Int) : α) + 1 / 2)
        x_outLoc y_outLoc input output).1.getPixel y_outLoc x_outLoc).green.val =
      ((input.getPixel y1 x1).green.val + (input.getPixel (y1 + 1) x1).green.val +
        (input.getPixel y1 (x1 + 1)).green.val +
        (input.getPixel (y1 + 1) (x1 + 1)).green.val) / 4) ∧
    (((bilinearInterpolation (((x1 : Int) : α) + 1 / 2) (((y1 : Int) : α) + 1 / 2)
        x_outLoc y_outLoc input output).1.getPixel y_outLoc x_outLoc).blue.val =
      ((input.getPixel y1 x1).blue.val + (input.getPixel (y1 + 1) x1).blue.val +
        (input.getPixel y1 (x1 + 1)).blue.val + (input.getPixel (y1 + 1) (x1 + 1)).blue.val) / 4) := by
  have hin : sampleInside input (((x1 : Int) : α) + 1 / 2) (((y1 : Int) : α) + 1 / 2) := by
    unfold sampleInside
    rw [floor_add_half, floor_add_half]
    refine ⟨⟨hx.1, ?_⟩, ⟨?_, hx.2⟩, ⟨hy.1, ?_⟩, ?_, hy.2⟩ <;> omega
  have hch : ∀ channel : pixel → byte,
      (toByte (interpolatedChannel input (((x1 : Int) : α) + 1 / 2) (((y1 : Int) : α) + 1 / 2)
        channel)).val =
      ((channel (input.getPixel y1 x1)).val + (channel (input.getPixel (y1 + 1) x1)).val +
        (channel (input.getPixel y1 (x1 + 1))).val +
        (channel (input.getPixel (y1 + 1) (x1 + 1))).val) / 4 := by
    intro channel
    have h := toByte_interpolatedChannel input (((x1 : Int) : α) + 1 / 2)
      (((y1 : Int) : α) + 1 / 2) channel
    rw [interpolatedChannel_midpoint, floor_natCast_div_four] at h
    rw [interpolatedChannel_midpoint]
    exact_mod_cast h
  have hs := bilinearSample_channels input (((x1 : Int) : α) + 1 / 2) (((y1 : Int) : α) + 1 / 2)
  refine ⟨?_, ?_, ?_, ?_, ?_⟩
  · rw [interpolationWeights_eq, fract_add_half, fract_add_half]
    refine Prod.ext ?_ (Prod.ext ?_ (Prod.ext ?_ ?_)) <;> norm_num
  · rw [bilinearInterpolation_eq, if_pos hin]
    simp
  · rw [bilinearInterpolation_getPixel _ _ _ _ _ _ hin, hs.1]
    exact hch pixel.red
  · rw [bilinearInterpolation_getPixel _ _ _ _ _ _ hin, hs.2.1]
    exact hch pixel.green
  · rw [bilinearInterpolation_getPixel _ _ _ _ _ _ hin, hs.2.2]
    exact hch pixel.blue

/-- C12 at a concrete input: the midpoint (1/2, 1/2) of a 2x2 red image. -/
theorem midpoint_is_mean_witness :
    (((0 : Int) ≤ 0 ∧ (0 : Int) + 1 < (Image.solid 2 2 ⟨255, 0, 0⟩).getCols) ∧
      ((0 : Int) ≤ 0 ∧ (0 : Int) + 1 < (Image.solid 2 2 ⟨255, 0, 0⟩).getRows)) ∧
    interpolationWeights (((0 : Int) : ℝ) + 1 / 2) (((0 : Int) : ℝ) + 1 / 2) =
      ((1 / 4 : ℝ), (1 / 4 : ℝ), (1 / 4 : ℝ), (1 / 4 : ℝ)) :=
  ⟨⟨by decide, by decide⟩,
    (midpoint_is_mean (Image.solid 2 2 ⟨255, 0, 0⟩) (Image.blank 2 2) 0 0 0 0
      (by decide) (by decide)).1⟩

/-- C14: `bilinearInterpolation` writes the output pixel at `(y_outLoc, x_outLoc)` if and
only if `0 ≤ x < cols - 1` and `0 ≤ y < rows - 1` (of the input image); when it does not
write, the output image is unchanged and nothing is accessed; every output pixel other
than `(y_outLoc, x_outLoc)` and the size of the output are unchanged, and no other
position is written.  The input image is a value that the call cannot modify. -/
theorem writes_iff_inside (x y : α) (x_outLoc y_outLoc : Int) (input output : Image) :
    (Access.write y_outLoc x_outLoc ∈
        (bilinearInterpolation x y x_outLoc y_outLoc input output).2 ↔
      (0 ≤ x ∧ x < (input.getCols : α) - 1) ∧ (0 ≤ y ∧ y < (input.getRows : α) - 1)) ∧
    (¬ ((0 ≤ x ∧ x < (input.getCols : α) - 1) ∧ (0 ≤ y ∧ y < (input.getRows : α) - 1)) →
      bilinearInterpolation x y x_outLoc y_outLoc input output = (output, [])) ∧
    (∀ row col : Int, ¬ (row = y_outLoc ∧ col = x_outLoc) →
      (bilinearInterpolation x y x_outLoc y_outLoc input output).1.getPixel row col =
        output.getPixel row col) ∧
    (bilinearInterpolation x y x_outLoc y_outLoc input output).1.rows = output.rows ∧
    (bilinearInterpolation x y x_outLoc y_outLoc input output).1.cols = output.cols ∧
    (∀ row col : Int,
      Access.write row col ∈ (bilinearInterpolation x y x_outLoc y_outLoc input output).2 →
        row = y_outLoc ∧ col = x_outLoc) := by
  rw [← sampleInside_iff_real, bilinearInterpolation_eq]
  by_cases h : sampleInside input x y
  · rw [if_pos h]
    refine ⟨⟨fun _ => h, fun _ => by simp⟩, fun hn => absurd h hn, ?_, rfl, rfl, ?_⟩
    · intro row col hne
      simp only [Image.getPixel, Image.setPixel]
      exact if_neg hne
    · intro row col hw
      simp only [cornerReads, List.mem_append, List.mem_cons, List.mem_singleton,
        List.not_mem_nil, or_false, Access.write.injEq] at hw
      rcases hw with ((hw | hw) | hw) | hw
      · rcases hw with hw | hw | hw | hw <;> cases hw
      · rcases hw with hw | hw | hw | hw <;> cases hw
      · rcases hw with hw | hw | hw | hw <;> cases hw
      · rcases hw with hw | hw
        · cases hw
        · exact hw
  · rw [if_neg h]
    refine ⟨⟨fun hw => absurd hw (List.not_mem_nil _), fun hs => absurd hs h⟩,
      fun _ => rfl, fun _ _ _ => rfl, rfl, rfl, fun _ _ hw => absurd hw (List.not_mem_nil _)⟩

/-- C14 at a concrete input: the source coordinate (5/2, 0) lies outside a 2x2 image. -/
theorem writes_iff_inside_witness :
    ¬ ((0 ≤ (5 / 2 : ℝ) ∧ (5 / 2 : ℝ) < ((Image.solid 2 2 ⟨255, 0, 0⟩).getCols : ℝ) - 1) ∧
      (0 ≤ (0 : ℝ) ∧ (0 : ℝ) < ((Image.solid 2 2 ⟨255, 0, 0⟩).getRows : ℝ) - 1)) ∧
    bilinearInterpolation (5 / 2 : ℝ) 0 1 1 (Image.solid 2 2 ⟨255, 0, 0⟩) (Image.blank 2 2) =
      (Image.blank 2 2, []) :=
  ⟨by norm_num [Image.getCols, Image.solid],
    (writes_iff_inside (5 / 2 : ℝ) 0 1 1 (Image.solid 2 2 ⟨255, 0, 0⟩) (Image.blank 2 2)).2.1
      (by norm_num [Image.getCols, Image.solid])⟩

/-- C15: on each axis, after the neighbour computation and the widening step the two
sample indices never coincide: `x1 = floor(x)`, `x2 = x1 + 1` and `x1 ≤ x < x2`; the
widening branch (`x >= x2`) is taken exactly when `x` is an integer. -/
theorem neighbours_never_coincide (v : α) :
    (neighbours v).1 = ⌊v⌋ ∧ (neighbours v).2 = (neighbours v).1 + 1 ∧
    (neighbours v).1 ≠ (neighbours v).2 ∧
    (((neighbours v).1 : Int) : α) ≤ v ∧ v < (((neighbours v).2 : Int) : α) ∧
    (widens v ↔ ∃ z : Int, v = (z : α)) := by
  rw [neighbours_eq]
  refine ⟨rfl, rfl, ?_, Int.floor_le v, ?_, widens_iff v⟩
  · show ⌊v⌋ ≠ ⌊v⌋ + 1
    omega
  · show v < ((⌊v⌋ + 1 : Int) : α)
    push_cast
    exact Int.lt_floor_add_one v

/-- C16: when the footprint passes the bounds check, the four weights are each in
`[0, 1]` and sum to exactly 1; for each channel the weighted sum is the weighted average of
the four corner values, lies between their minimum and their maximum and so in
`[0, 255]`; the value stored for red, green and blue is the floor of the weighted sum, so
the conversion to the 8-bit type never wraps around. -/
theorem weighted_average (input output : Image) (x y : α) (x_outLoc y_outLoc : Int)
    (channel : pixel → byte) (h : boundsCheck input x y) :
    ((0 ≤ (interpolationWeights x y).1 ∧ (interpolationWeights x y).1 ≤ 1) ∧
      (0 ≤ (interpolationWeights x y).2.1 ∧ (interpolationWeights x y).2.1 ≤ 1) ∧
      (0 ≤ (interpolationWeights x y).2.2.1 ∧ (interpolationWeights x y).2.2.1 ≤ 1) ∧
      (0 ≤ (interpolationWeights x y).2.2.2 ∧ (interpolationWeights x y).2.2.2 ≤ 1)) ∧
    (interpolationWeights x y).1 + (interpolationWeights x y).2.1 +
      (interpolationWeights x y).2.2.1 + (interpolationWeights x y).2.2.2 = 1 ∧
    interpolatedChannel input x y channel =
      (interpolationWeights x y).1 * ((cornerValues input x y channel).1 : α) +
      (interpolationWeights x y).2.1 * ((cornerValues input x y channel).2.1 : α) +
      (interpolationWeights x y).2.2.1 * ((cornerValues input x y channel).2.2.1 : α) +
      (interpolationWeights x y).2.2.2 * ((cornerValues input x y channel).2.2.2 : α) ∧
    (((min (min (cornerValues input x y channel).1 (cornerValues input x y channel).2.1)
        (min (cornerValues input x y channel).2.2.1 (cornerValues input x y channel).2.2.2) : Nat) : α)
      ≤ interpolatedChannel input x y channel ∧
    interpolatedChannel input x y channel ≤
      ((max (max (cornerValues input x y channel).1 (cornerValues input x y channel).2.1)
        (max (cornerValues input x y channel).2.2.1 (cornerValues input x y channel).2.2.2) : Nat) : α)) ∧
    (0 ≤ interpolatedChannel input x y channel ∧ interpolatedChannel input x y channel ≤ 255) ∧
    ((((bilinearInterpolation x y x_outLoc y_outLoc input output).1.getPixel
        y_outLoc x_outLoc).red.val : Nat) : Int) = ⌊interpolatedChannel input x y pixel.red⌋ ∧
    ((((bilinearInterpolation x y x_outLoc y_outLoc input output).1.getPixel
        y_outLoc x_outLoc).green.val : Nat) : Int) = ⌊interpolatedChannel input x y pixel.green⌋ ∧
    ((((bilinearInterpolation x y x_outLoc y_outLoc input output).1.getPixel
        y_outLoc x_outLoc).blue.val : Nat) : Int) = ⌊interpolatedChannel input x y pixel.blue⌋ := by
  have hin : sampleInside input x y := (boundsCheck_iff_sampleInside input x y).1 h
  have fx0 := Int.fract_nonneg x
  have fx1 := Int.fract_lt_one x
  have fy0 := Int.fract_nonneg y
  have fy1 := Int.fract_lt_one y
  have hs := bilinearSample_channels input x y
  refine ⟨?_, ?_, interpolatedChannel_eq input x y channel, ?_,
    interpolatedChannel_range input x y channel, ?_, ?_, ?_⟩
  · rw [interpolationWeights_eq]
    refine ⟨⟨?_, ?_⟩, ⟨?_, ?_⟩, ⟨?_, ?_⟩, ?_, ?_⟩ <;> simp only [] <;> nlinarith
  · rw [interpolationWeights_eq]
    simp only []
    ring
  · apply interpolatedChannel_between
    · exact ⟨Nat.cast_le.2 (le_trans (min_le_left _ _) (min_le_left _ _)),
        Nat.cast_le.2 (le_trans (le_max_left _ _) (le_max_left _ _))⟩
    · exact ⟨Nat.cast_le.2 (le_trans (min_le_left _ _) (min_le_right _ _)),
        Nat.cast_le.2 (le_trans (le_max_right _ _) (le_max_left _ _))⟩
    · exact ⟨Nat.cast_le.2 (le_trans (min_le_right _ _) (min_le_left _ _)),
        Nat.cast_le.2 (le_trans (le_max_left _ _) (le_max_right _ _))⟩
    · exact ⟨Nat.cast_le.2 (le_trans (min_le_right _ _) (min_le_right _ _)),
        Nat.cast_le.2 (le_trans (le_max_right _ _) (le_max_right _ _))⟩
  · rw [bilinearInterpolation_getPixel _ _ _ _ _ _ hin, hs.1]
    exact toByte_interpolatedChannel input x y pixel.red
  · rw [bilinearInterpolation_getPixel _ _ _ _ _ _ hin, hs.2.1]
    exact toByte_interpolatedChannel input x y pixel.green
  · rw [bilinearInterpolation_getPixel _ _ _ _ _ _ hin, hs.2.2]
    exact toByte_interpolatedChannel input x y pixel.blue

/-- C16 at a concrete input: the source coordinate (1/2, 1/4) in a 2x2 red image. -/
theorem weighted_average_witness :
    boundsCheck (Image.solid 2 2 ⟨255, 0, 0⟩) (1 / 2 : ℝ) (1 / 4 : ℝ) ∧
    (interpolationWeights (1 / 2 : ℝ) (1 / 4 : ℝ)).1 + (interpolationWeights (1 / 2 : ℝ) (1 / 4 : ℝ)).2.1 +
      (interpolationWeights (1 / 2 : ℝ) (1 / 4 : ℝ)).2.2.1 +
      (interpolationWeights (1 / 2 : ℝ) (1 / 4 : ℝ)).2.2.2 = 1 :=
  have hb : boundsCheck (Image.solid 2 2 ⟨255, 0, 0⟩) (1 / 2 : ℝ) (1 / 4 : ℝ) :=
    (boundsCheck_iff_sampleInside _ _ _).2 ((sampleInside_iff_real _ _ _).2
      ⟨⟨by norm_num, by norm_num [Image.getCols, Image.solid]⟩,
        ⟨by norm_num, by norm_num [Image.getRows, Image.solid]⟩⟩)
  ⟨hb, (weighted_average (Image.solid 2 2 ⟨255, 0, 0⟩) (Image.blank 2 2) (1 / 2 : ℝ) (1 / 4 : ℝ)
    0 0 pixel.red hb).2.1⟩

end ResamplerClaims

end Driver
